import Mathlib

/-!
A shallow embedding of the pynbs codec (pynbs.py) and a verification of its
specified properties.  Byte streams are modelled as `List Nat` (each element a
byte value), Python `str` values as lists of Unicode code points, Python
`float` header tempo as `ℚ`, and all machine integers as `Int` with explicit
range checks where `struct.pack`/`struct.unpack` constrain them.  Fallible
operations return `Except Err`.
-/

namespace Pynbs

/-- Error taxonomy of the codec: `struct.error` on a short read maps to
`unexpectedEndOfData`, the nonzero leading-marker `DeprecationWarning` to
`deprecatedFormat`, `UnicodeDecodeError` to `invalidEncoding`,
`struct.error` on packing an out-of-range value to `packError`, and
`UnicodeEncodeError` (raised by `str.encode()` on lone surrogates) to
`encodeError`. -/
inductive Err where
  | unexpectedEndOfData
  | deprecatedFormat
  | invalidEncoding
  | packError
  | encodeError
deriving DecidableEq, Repr

deriving instance DecidableEq for Except

/-- A byte stream: a list of byte values. -/
abbrev Bytes := List Nat

/-- Signed value of one byte, as `struct.unpack('<b', ...)` computes it. -/
def decodeByteVal (b : Nat) : Int :=
  if b < 128 then (b : Int) else (b : Int) - 256

/-- Signed value of two little-endian bytes, as `struct.unpack('<h', ...)`. -/
def decodeShortVal (b0 b1 : Nat) : Int :=
  if b0 + 256 * b1 < 32768 then ((b0 + 256 * b1 : Nat) : Int)
  else ((b0 + 256 * b1 : Nat) : Int) - 65536

/-- Signed value of four little-endian bytes, as `struct.unpack('<i', ...)`. -/
def decodeIntVal (b0 b1 b2 b3 : Nat) : Int :=
  if b0 + 256 * b1 + 65536 * b2 + 16777216 * b3 < 2147483648 then
    ((b0 + 256 * b1 + 65536 * b2 + 16777216 * b3 : Nat) : Int)
  else ((b0 + 256 * b1 + 65536 * b2 + 16777216 * b3 : Nat) : Int) - 4294967296

/-- The byte `struct.pack('<b', v)` produces for an in-range `v`. -/
def byteBytes (v : Int) : Bytes := [(v % 256).toNat]

/-- The two bytes `struct.pack('<h', v)` produces for an in-range `v`. -/
def shortBytes (v : Int) : Bytes :=
  [(v % 65536).toNat % 256, (v % 65536).toNat / 256]

/-- The four bytes `struct.pack('<i', v)` produces for an in-range `v`. -/
def intBytes (v : Int) : Bytes :=
  [(v % 4294967296).toNat % 256, (v % 4294967296).toNat / 256 % 256,
   (v % 4294967296).toNat / 65536 % 256, (v % 4294967296).toNat / 16777216]

/-- Models `BYTE.pack` (`struct.Struct('<b')`): fails on out-of-range values. -/
def packByte (v : Int) : Except Err Bytes :=
  if -128 ≤ v ∧ v ≤ 127 then .ok (byteBytes v) else .error .packError

/-- Models `SHORT.pack` (`struct.Struct('<h')`). -/
def packShort (v : Int) : Except Err Bytes :=
  if -32768 ≤ v ∧ v ≤ 32767 then .ok (shortBytes v) else .error .packError

/-- Models `INT.pack` (`struct.Struct('<i')`). -/
def packInt (v : Int) : Except Err Bytes :=
  if -2147483648 ≤ v ∧ v ≤ 2147483647 then .ok (intBytes v) else .error .packError

/-- A Python string, modelled as its list of Unicode code points.  `len` on a
Python string is the length of this list. -/
abbrev PyStr := List Nat

/-- The UTF-8 byte sequence of one code point.  The rejection of the
surrogate range that `str.encode()` performs is `utf8Encodable`, checked
where the program encodes, in `encode_string`. -/
def utf8EncodeChar (c : Nat) : Bytes :=
  if c < 128 then [c]
  else if c < 2048 then [192 + c / 64, 128 + c % 64]
  else if c < 65536 then [224 + c / 4096, 128 + c / 64 % 64, 128 + c % 64]
  else [240 + c / 262144, 128 + c / 4096 % 64, 128 + c / 64 % 64, 128 + c % 64]

/-- The UTF-8 bytes of a Python string, as `str.encode()` produces them
when it succeeds. -/
def utf8Encode (s : PyStr) : Bytes := (s.map utf8EncodeChar).flatten

/-- Code points `str.encode()` accepts: everything `chr` can produce
except the surrogate range U+D800 to U+DFFF, on which the UTF-8 encoder
raises `UnicodeEncodeError`. -/
def utf8Encodable (c : Nat) : Bool :=
  c < 55296 || (57343 < c && c ≤ 1114111)

/-- Whether a byte is a UTF-8 continuation byte. -/
def isCont (b : Nat) : Bool := 128 ≤ b && b < 192

/-- Decodes the continuation of a two-byte UTF-8 sequence whose lead byte
is `b` (overlong lead bytes 192 and 193 are already rejected upstream). -/
def utf8Two (b : Nat) : Bytes → Option (Nat × Bytes)
  | c1 :: r => if isCont c1 then some ((b - 192) * 64 + (c1 - 128), r) else none
  | [] => none

/-- Decodes the continuation of a three-byte UTF-8 sequence with lead byte
`b`, rejecting overlong encodings and surrogates. -/
def utf8Three (b : Nat) : Bytes → Option (Nat × Bytes)
  | c1 :: c2 :: r =>
    if isCont c1 && isCont c2 then
      if (b - 224) * 4096 + (c1 - 128) * 64 + (c2 - 128) < 2048 ∨
          (55296 ≤ (b - 224) * 4096 + (c1 - 128) * 64 + (c2 - 128) ∧
           (b - 224) * 4096 + (c1 - 128) * 64 + (c2 - 128) < 57344) then
        none
      else some ((b - 224) * 4096 + (c1 - 128) * 64 + (c2 - 128), r)
    else none
  | _ => none

/-- Decodes the continuation of a four-byte UTF-8 sequence with lead byte
`b`, rejecting overlong encodings and code points above 1114111. -/
def utf8Four (b : Nat) : Bytes → Option (Nat × Bytes)
  | c1 :: c2 :: c3 :: r =>
    if isCont c1 && isCont c2 && isCont c3 then
      if (b - 240) * 262144 + (c1 - 128) * 4096 + (c2 - 128) * 64 +
            (c3 - 128) < 65536 ∨
          1114111 < (b - 240) * 262144 + (c1 - 128) * 4096 +
            (c2 - 128) * 64 + (c3 - 128) then
        none
      else
        some ((b - 240) * 262144 + (c1 - 128) * 4096 + (c2 - 128) * 64 +
                (c3 - 128), r)
    else none
  | _ => none

/-- Decodes one UTF-8 encoded character from the front of a byte stream,
with the validity checks of strict `bytes.decode()`: stray continuation
bytes, truncated sequences, overlong encodings, surrogates and code points
above 1114111 are rejected. -/
def utf8DecodeOne : Bytes → Option (Nat × Bytes)
  | [] => none
  | b :: rest =>
    if b < 128 then some (b, rest)
    else if b < 194 then none
    else if b < 224 then utf8Two b rest
    else if b < 240 then utf8Three b rest
    else if b < 245 then utf8Four b rest
    else none

/-- The character-by-character decoding loop of `bytes.decode()`.  The fuel
argument only serves termination; `utf8Decode` supplies enough that it is
never exhausted (each step consumes at least one byte). -/
def utf8DecodeLoop : Nat → Bytes → Option PyStr
  | 0, _ => none
  | _ + 1, [] => some []
  | fuel + 1, b :: rest =>
    match utf8DecodeOne (b :: rest) with
    | none => none
    | some (cp, r) => (utf8DecodeLoop fuel r).map (cp :: ·)

/-- Strict UTF-8 decoding of a whole byte string, as `bytes.decode()`. -/
def utf8Decode (s : Bytes) : Option PyStr := utf8DecodeLoop (s.length + 1) s

/-- Models `int(header.tempo * 100)`: multiplying a rational by 100 and
truncating toward zero (Python `int()`), computed on the raw numerator and
denominator — for the positive denominator of a normalized rational,
truncation of `q * 100` is the zero-truncating division of `q.num * 100`
by `q.den`. -/
def pyIntTempo (q : ℚ) : Int := (q.num * 100).tdiv (q.den : Int)

/-- The `Note` namedtuple. -/
structure Note where
  tick : Int
  layer : Int
  instrument : Int
  key : Int
deriving DecidableEq, Repr

/-- The `Layer` namedtuple. -/
structure Layer where
  id : Int
  name : PyStr
  volume : Int
  panning : Int
deriving DecidableEq, Repr

/-- The `Instrument` namedtuple. -/
structure Instrument where
  id : Int
  name : PyStr
  file : PyStr
  pitch : Int
  press_key : Bool
deriving DecidableEq, Repr

/-- The `Header` object: a flat record of the 18 metadata fields. -/
structure Header where
  version : Int
  default_instruments : Int
  song_length : Int
  song_layers : Int
  song_name : PyStr
  song_author : PyStr
  original_author : PyStr
  description : PyStr
  tempo : ℚ
  auto_save : Bool
  auto_save_duration : Int
  time_signature : Int
  minutes_spent : Int
  left_clicks : Int
  right_clicks : Int
  blocks_added : Int
  blocks_removed : Int
  song_origin : PyStr
deriving DecidableEq, Repr

/-- The default values `Header.__init__` supplies for omitted fields. -/
def defaultHeader : Header :=
  { version := 3, default_instruments := 16, song_length := 0,
    song_layers := 0, song_name := [], song_author := [],
    original_author := [], description := [], tempo := 10,
    auto_save := false, auto_save_duration := 10, time_signature := 4,
    minutes_spent := 0, left_clicks := 0, right_clicks := 0,
    blocks_added := 0, blocks_removed := 0, song_origin := [] }

/-- The `File` object: one song document. -/
structure File where
  header : Header
  notes : List Note
  layers : List Layer
  instruments : List Instrument
deriving DecidableEq, Repr

/-- Models `new_file` with an explicit header: empty notes, one default
layer `Layer(0, '', 100, 100)`, no instruments. -/
def new_file (h : Header) : File := ⟨h, [], [⟨0, [], 100, 100⟩], []⟩

/-- A parser over a byte stream: returns the parsed value and the unread
remainder of the stream, or the first error raised. -/
abbrev P (α : Type) := Bytes → Except Err (α × Bytes)

/-- Sequencing of parsers, modelling Python's sequential reads from the
shared buffer (an exception aborts the whole parse). -/
def pbind (p : P α) (f : α → P β) : P β := fun s =>
  match p s with
  | .error e => .error e
  | .ok (a, rest) => f a rest

/-- A parser that reads nothing and returns `a`. -/
def ppure (a : α) : P α := fun s => .ok (a, s)

/-- A parser that raises `e`. -/
def pfail (e : Err) : P α := fun _ => .error e

/-- Models `Parser.read_numeric(BYTE)`: `unpack` raises on a short read. -/
def readByte : P Int := fun s =>
  match s with
  | b :: rest => .ok (decodeByteVal b, rest)
  | _ => .error .unexpectedEndOfData

/-- Models `Parser.read_numeric(SHORT)`. -/
def readShort : P Int := fun s =>
  match s with
  | b0 :: b1 :: rest => .ok (decodeShortVal b0 b1, rest)
  | _ => .error .unexpectedEndOfData

/-- Models `Parser.read_numeric(INT)`. -/
def readInt : P Int := fun s =>
  match s with
  | b0 :: b1 :: b2 :: b3 :: rest => .ok (decodeIntVal b0 b1 b2 b3, rest)
  | _ => .error .unexpectedEndOfData

/-- Models `Parser.read_string`: a 32-bit signed length, then
`buffer.read(length)` (which returns at most `length` bytes and the whole
remainder when `length` is negative), then `bytes.decode()`. -/
def read_string : P PyStr := fun s =>
  match readInt s with
  | .error e => .error e
  | .ok (len, rest) =>
    let body := if len < 0 then rest else rest.take len.toNat
    let rest' := if len < 0 then ([] : Bytes) else rest.drop len.toNat
    match utf8Decode body with
    | some str => .ok (str, rest')
    | none => .error .invalidEncoding

/-- Models one full run of the `Parser.jump` generator with accumulator
`acc`: reads 16-bit values until a zero, accumulating and yielding. -/
def jumpRun (acc : Int) : Bytes → Except Err (List Int × Bytes)
  | b0 :: b1 :: rest =>
    let j := decodeShortVal b0 b1
    if j = 0 then .ok ([], rest)
    else
      match jumpRun (acc + j) rest with
      | .ok (vs, r) => .ok ((acc + j) :: vs, r)
      | .error e => .error e
  | _ => .error .unexpectedEndOfData

/-- Models `Parser.jump` run to exhaustion: the accumulator starts at -1. -/
def jump (s : Bytes) : Except Err (List Int × Bytes) := jumpRun (-1) s

/-- Models the body of `Parser.parse_header` after the zero marker: the 18
fields are read in the order of the dict literal. -/
def parseHeaderTail : P Header :=
  pbind readByte fun version =>
    pbind readByte fun default_instruments =>
    pbind readShort fun song_length =>
    pbind readShort fun song_layers =>
    pbind read_string fun song_name =>
    pbind read_string fun song_author =>
    pbind read_string fun original_author =>
    pbind read_string fun description =>
    pbind readShort fun tempo_raw =>
    pbind readByte fun auto_save_raw =>
    pbind readByte fun auto_save_duration =>
    pbind readByte fun time_signature =>
    pbind readInt fun minutes_spent =>
    pbind readInt fun left_clicks =>
    pbind readInt fun right_clicks =>
    pbind readInt fun blocks_added =>
    pbind readInt fun blocks_removed =>
    pbind read_string fun song_origin =>
    ppure { version, default_instruments, song_length, song_layers,
            song_name, song_author, original_author, description,
            tempo := (tempo_raw : ℚ) / 100,
            auto_save := auto_save_raw == 1,
            auto_save_duration, time_signature, minutes_spent,
            left_clicks, right_clicks, blocks_added, blocks_removed,
            song_origin }

/-- Models `Parser.parse_header`: the leading 16-bit marker must be zero,
otherwise the deprecated-format error is raised before any further read. -/
def parse_header : P Header :=
  pbind readShort fun marker =>
  if marker = 0 then parseHeaderTail else pfail .deprecatedFormat

/-- Models the inner loop of `Parser.parse_notes` at tick `tick`: the inner
`jump` generator with accumulator `acc`, reading instrument and key bytes
after each nonzero jump. -/
def parseNotesInner (tick acc : Int) : Bytes → Except Err (List Note × Bytes)
  | b0 :: b1 :: rest =>
    let j := decodeShortVal b0 b1
    if j = 0 then .ok ([], rest)
    else
      match rest with
      | bi :: bk :: rest2 =>
        match parseNotesInner tick (acc + j) rest2 with
        | .ok (ns, r) =>
          .ok (⟨tick, acc + j, decodeByteVal bi, decodeByteVal bk⟩ :: ns, r)
        | .error e => .error e
      | _ => .error .unexpectedEndOfData
  | _ => .error .unexpectedEndOfData

/-- Models the outer loop of `Parser.parse_notes`: the outer `jump`
generator with accumulator `acc`, running the inner loop after each nonzero
jump.  The fuel argument only serves termination; `parse_notes` supplies
enough fuel that it is never exhausted (each step consumes at least two
bytes). -/
def parseNotesGo : Nat → Int → Bytes → Except Err (List Note × Bytes)
  | 0, _, _ => .error .unexpectedEndOfData
  | fuel + 1, acc, s =>
    match s with
    | b0 :: b1 :: rest =>
      let j := decodeShortVal b0 b1
      if j = 0 then .ok ([], rest)
      else
        match parseNotesInner (acc + j) (-1) rest with
        | .ok (ns, r) =>
          match parseNotesGo fuel (acc + j) r with
          | .ok (ns2, r2) => .ok (ns ++ ns2, r2)
          | .error e => .error e
        | .error e => .error e
    | _ => .error .unexpectedEndOfData

/-- Models `list(Parser.parse_notes())`. -/
def parse_notes : P (List Note) := fun s => parseNotesGo (s.length + 1) (-1) s

/-- Models `Parser.parse_layers` from index `i` on: each layer is a string,
a volume byte and a panning byte, with positional ids. -/
def parseLayersFrom (i : Nat) : Nat → P (List Layer)
  | 0 => ppure []
  | n + 1 =>
    pbind read_string fun name =>
    pbind readByte fun volume =>
    pbind readByte fun pan =>
    pbind (parseLayersFrom (i + 1) n) fun rest =>
    ppure (⟨(i : Int), name, volume, pan⟩ :: rest)

/-- Models `list(Parser.parse_layers(layers_count))`: `range` of a negative
count is empty. -/
def parse_layers (count : Int) : P (List Layer) := parseLayersFrom 0 count.toNat

/-- Models the record loop of `Parser.parse_instruments` from index `i`. -/
def parseInstrumentsFrom (i : Nat) : Nat → P (List Instrument)
  | 0 => ppure []
  | n + 1 =>
    pbind read_string fun name =>
    pbind read_string fun file =>
    pbind readByte fun pitch =>
    pbind readByte fun press =>
    pbind (parseInstrumentsFrom (i + 1) n) fun rest =>
    ppure (⟨(i : Int), name, file, pitch, press == 1⟩ :: rest)

/-- Models `list(Parser.parse_instruments())`: an 8-bit signed count, then
that many records. -/
def parse_instruments : P (List Instrument) :=
  pbind readByte fun count => parseInstrumentsFrom 0 count.toNat

/-- Models `Parser.read_file`: header, notes, layers (count from the
header), instruments, in that order. -/
def read_file : P File :=
  pbind parse_header fun header =>
  pbind parse_notes fun notes =>
  pbind (parse_layers header.song_layers) fun layers =>
  pbind parse_instruments fun instruments =>
  ppure ⟨header, notes, layers, instruments⟩

/-- Stable insertion of `x` into `l`: `x` goes before the first element
whose key is not smaller. -/
def insertByKey (key : α → Int) (x : α) : List α → List α
  | [] => [x]
  | y :: ys => if key y < key x then y :: insertByKey key x ys else x :: y :: ys

/-- Stable ascending sort by an integer key.  Python's `sorted`/`list.sort`
with a key function is the stable ascending sort, which is extensionally
unique, so this insertion sort computes the same list. -/
def sortByKey (key : α → Int) : List α → List α
  | [] => []
  | x :: xs => insertByKey key x (sortByKey key xs)

/-- Models the loop of `File.__iter__`: walks the tick-sorted notes,
accumulating the current chord; on a tick change the accumulated chord is
layer-sorted and yielded; the final chord is yielded without sorting. -/
def chordLoop : List Note → Int → List Note → List (Int × List Note)
  | [], t, chord => [(t, chord)]
  | n :: rest, t, chord =>
    if n.tick = t then chordLoop rest t (chord ++ [n])
    else (t, sortByKey (fun m => m.layer) chord) :: chordLoop rest n.tick [n]

/-- Models `list(File.__iter__())`: empty for no notes, otherwise the chord
loop over `sorted(notes, key=tick)` starting from the tick of the first
note of the unsorted list. -/
def fileChords (f : File) : List (Int × List Note) :=
  match f.notes with
  | [] => []
  | n0 :: _ => chordLoop (sortByKey (fun n => n.tick) f.notes) n0.tick []

/-- Models `Writer.encode_string`: packs `len(value)` (the character count)
as a 32-bit integer, then writes `value.encode()`, which raises
`UnicodeEncodeError` when the string contains a lone surrogate code
point. -/
def encode_string (s : PyStr) : Except Err Bytes :=
  match packInt (s.length : Int) with
  | .ok lenb =>
    if s.all utf8Encodable then .ok (lenb ++ utf8Encode s)
    else .error .encodeError
  | .error e => .error e

/-- Models `Writer.write_header`: the zero marker then the 18 fields. -/
def write_header (f : File) : Except Err Bytes := do
  let h := f.header
  let b0 ← packShort 0
  let b1 ← packByte h.version
  let b2 ← packByte h.default_instruments
  let b3 ← packShort h.song_length
  let b4 ← packShort h.song_layers
  let b5 ← encode_string h.song_name
  let b6 ← encode_string h.song_author
  let b7 ← encode_string h.original_author
  let b8 ← encode_string h.description
  let b9 ← packShort (pyIntTempo h.tempo)
  let b10 ← packByte (if h.auto_save then 1 else 0)
  let b11 ← packByte h.auto_save_duration
  let b12 ← packByte h.time_signature
  let b13 ← packInt h.minutes_spent
  let b14 ← packInt h.left_clicks
  let b15 ← packInt h.right_clicks
  let b16 ← packInt h.blocks_added
  let b17 ← packInt h.blocks_removed
  let b18 ← encode_string h.song_origin
  pure (b0 ++ b1 ++ b2 ++ b3 ++ b4 ++ b5 ++ b6 ++ b7 ++ b8 ++ b9 ++ b10 ++
        b11 ++ b12 ++ b13 ++ b14 ++ b15 ++ b16 ++ b17 ++ b18)

/-- Models the inner loop of `Writer.write_notes` over one chord: a layer
delta, instrument and key bytes per note, then the terminating zero. -/
def writeChord : List Note → Int → Except Err Bytes
  | [], _ => packShort 0
  | n :: ns, prevLayer => do
    let d ← packShort (n.layer - prevLayer)
    let bi ← packByte n.instrument
    let bk ← packByte n.key
    let rest ← writeChord ns n.layer
    pure (d ++ bi ++ bk ++ rest)

/-- Models the outer loop of `Writer.write_notes` over the chords: a tick
delta then the chord body per chord, then the terminating zero. -/
def writeChords : List (Int × List Note) → Int → Except Err Bytes
  | [], _ => packShort 0
  | (t, chord) :: rest, prev => do
    let d ← packShort (t - prev)
    let cb ← writeChord chord (-1)
    let rb ← writeChords rest t
    pure (d ++ cb ++ rb)

/-- Models `Writer.write_notes`: iterates the document's chord grouping
with `current_tick` starting at -1. -/
def write_notes (f : File) : Except Err Bytes := writeChords (fileChords f) (-1)

/-- The tick-level deltas `Writer.write_notes` computes, in order (the
value of `tick - current_tick` at each chord). -/
def tickDeltasAux : List (Int × List Note) → Int → List Int
  | [], _ => []
  | (t, _) :: rest, prev => (t - prev) :: tickDeltasAux rest t

/-- Tick-level deltas written when encoding `f`. -/
def tickDeltas (f : File) : List Int := tickDeltasAux (fileChords f) (-1)

/-- Models the loop of `Writer.write_layers`. -/
def writeLayersList : List Layer → Except Err Bytes
  | [] => .ok []
  | l :: ls => do
    let nb ← encode_string l.name
    let vb ← packByte l.volume
    let pb ← packByte l.panning
    let rest ← writeLayersList ls
    pure (nb ++ vb ++ pb ++ rest)

/-- Models `Writer.write_layers`. -/
def write_layers (f : File) : Except Err Bytes := writeLayersList f.layers

/-- Models the record loop of `Writer.write_instruments`. -/
def writeInstrumentsList : List Instrument → Except Err Bytes
  | [] => .ok []
  | i :: rest => do
    let nb ← encode_string i.name
    let fb ← encode_string i.file
    let pb ← packByte i.pitch
    let kb ← packByte (if i.press_key then 1 else 0)
    let rb ← writeInstrumentsList rest
    pure (nb ++ fb ++ pb ++ kb ++ rb)

/-- Models `Writer.write_instruments`: an 8-bit signed count then the
records. -/
def write_instruments (f : File) : Except Err Bytes := do
  let cb ← packByte (f.instruments.length : Int)
  let rest ← writeInstrumentsList f.instruments
  pure (cb ++ rest)

/-- Models `Writer.encode_file`: the four sections in order. -/
def encode_file (f : File) : Except Err Bytes := do
  let hb ← write_header f
  let nb ← write_notes f
  let lb ← write_layers f
  let ib ← write_instruments f
  pure (hb ++ nb ++ lb ++ ib)

/-- Models `File.update_header`: `song_length` becomes the tick of the last
note only when notes exist; `song_layers` becomes the layer count. -/
def update_header (f : File) : File :=
  let sl := match f.notes.getLast? with
    | some n => n.tick
    | none => f.header.song_length
  { f with header :=
      { f.header with song_length := sl,
                      song_layers := (f.layers.length : Int) } }

/-- Models `File.save`: `update_header` then `encode_file`, the produced
byte stream being what is written to the sink. -/
def save (f : File) : Except Err Bytes := encode_file (update_header f)

/-! ## Predicates and concrete documents used by the development -/

/-- The values yielded by one run of the `jump` generator, given the list
of nonzero jump deltas read, starting from accumulator `acc`. -/
def jumpVals : Int → List Int → List Int
  | _, [] => []
  | acc, j :: js => (acc + j) :: jumpVals (acc + j) js

/-- A parser that never raises the deprecated-format error. -/
def NoDeprecated (p : P α) : Prop :=
  ∀ s e, p s = .error e → e ≠ .deprecatedFormat

/-- A Python string the codec round-trips: ASCII code points and a length
within the signed 32-bit range. -/
def StrOk (s : PyStr) : Prop :=
  (∀ c ∈ s, c < 128) ∧ s.length ≤ 2147483647

/-- Header fields representable by the struct formats that write them. -/
def WFHeader (h : Header) : Prop :=
  (-128 ≤ h.version ∧ h.version ≤ 127) ∧
  (-128 ≤ h.default_instruments ∧ h.default_instruments ≤ 127) ∧
  (-32768 ≤ h.song_length ∧ h.song_length ≤ 32767) ∧
  (-32768 ≤ h.song_layers ∧ h.song_layers ≤ 32767) ∧
  StrOk h.song_name ∧ StrOk h.song_author ∧ StrOk h.original_author ∧
  StrOk h.description ∧
  (100 : Int) % (h.tempo.den : Int) = 0 ∧
  (-32768 ≤ pyIntTempo h.tempo ∧ pyIntTempo h.tempo ≤ 32767) ∧
  (-128 ≤ h.auto_save_duration ∧ h.auto_save_duration ≤ 127) ∧
  (-128 ≤ h.time_signature ∧ h.time_signature ≤ 127) ∧
  (-2147483648 ≤ h.minutes_spent ∧ h.minutes_spent ≤ 2147483647) ∧
  (-2147483648 ≤ h.left_clicks ∧ h.left_clicks ≤ 2147483647) ∧
  (-2147483648 ≤ h.right_clicks ∧ h.right_clicks ≤ 2147483647) ∧
  (-2147483648 ≤ h.blocks_added ∧ h.blocks_added ≤ 2147483647) ∧
  (-2147483648 ≤ h.blocks_removed ∧ h.blocks_removed ≤ 2147483647) ∧
  StrOk h.song_origin

/-- The concatenated header section an in-range header encodes to. -/
def strBytes (s : PyStr) : Bytes := intBytes (s.length : Int) ++ utf8Encode s

/-- The byte image of `write_header` for a packable header. -/
def headerBytes (h : Header) : Bytes :=
  shortBytes 0 ++ byteBytes h.version ++ byteBytes h.default_instruments ++
  shortBytes h.song_length ++ shortBytes h.song_layers ++
  strBytes h.song_name ++ strBytes h.song_author ++
  strBytes h.original_author ++ strBytes h.description ++
  shortBytes (pyIntTempo h.tempo) ++ byteBytes (if h.auto_save then 1 else 0) ++
  byteBytes h.auto_save_duration ++ byteBytes h.time_signature ++
  intBytes h.minutes_spent ++ intBytes h.left_clicks ++
  intBytes h.right_clicks ++ intBytes h.blocks_added ++
  intBytes h.blocks_removed ++ strBytes h.song_origin

/-- The on-disk order of notes: lexicographic by tick, then layer. -/
def lexLt (a b : Note) : Prop :=
  a.tick < b.tick ∨ (a.tick = b.tick ∧ a.layer < b.layer)

instance : DecidableRel lexLt := fun a b =>
  inferInstanceAs (Decidable (a.tick < b.tick ∨
    (a.tick = b.tick ∧ a.layer < b.layer)))

/-- All notes of a collection, in the order the chord list presents them. -/
def chordsFlatten (cs : List (Int × List Note)) : List Note :=
  (cs.map Prod.snd).flatten

/-- The shape the note-grid writer needs: tick strictly above the previous
one, nonempty chords of notes at exactly that tick whose layers strictly
increase from above -1. -/
def GoodChords : Int → List (Int × List Note) → Prop
  | _, [] => True
  | prev, (t, c) :: rest =>
      prev < t ∧ c ≠ [] ∧ (∀ n ∈ c, n.tick = t) ∧
      List.Chain (· < ·) (-1) (c.map Note.layer) ∧ GoodChords t rest

/-- Layer fields representable by the formats that write them. -/
def WFLayer (l : Layer) : Prop :=
  StrOk l.name ∧ -128 ≤ l.volume ∧ l.volume ≤ 127 ∧
  -128 ≤ l.panning ∧ l.panning ≤ 127

/-- Instrument fields representable by the formats that write them. -/
def WFInstrument (i : Instrument) : Prop :=
  StrOk i.name ∧ StrOk i.file ∧ -128 ≤ i.pitch ∧ i.pitch ≤ 127

/-- Notes in the canonical on-disk order with representable fields. -/
def WFNotes (notes : List Note) : Prop :=
  List.Chain' lexLt notes ∧
  ∀ n ∈ notes, 0 ≤ n.tick ∧ n.tick ≤ 32766 ∧
    0 ≤ n.layer ∧ n.layer ≤ 32766 ∧
    -128 ≤ n.instrument ∧ n.instrument ≤ 127 ∧
    -128 ≤ n.key ∧ n.key ≤ 127

/-- A document the codec can represent exactly: packable header fields,
notes sorted in the on-disk order with representable fields, positional
layer and instrument ids, representable layer and instrument fields, at
most 127 instruments, and header counters consistent with the note and
layer data. -/
def WF (f : File) : Prop :=
  WFHeader f.header ∧ WFNotes f.notes ∧
  (∀ l ∈ f.layers, WFLayer l) ∧
  f.layers.map Layer.id = (List.range' 0 f.layers.length).map Int.ofNat ∧
  (∀ x ∈ f.instruments, WFInstrument x) ∧
  f.instruments.map Instrument.id =
    (List.range' 0 f.instruments.length).map Int.ofNat ∧
  f.instruments.length ≤ 127 ∧
  f.header.song_layers = (f.layers.length : Int) ∧
  f.header.song_length =
    (match f.notes.getLast? with
     | some n => n.tick
     | none => f.header.song_length)

instance : DecidablePred StrOk := fun s =>
  inferInstanceAs (Decidable ((∀ c ∈ s, c < 128) ∧ s.length ≤ 2147483647))

instance : DecidablePred WFHeader := fun h =>
  inferInstanceAs (Decidable (
    (-128 ≤ h.version ∧ h.version ≤ 127) ∧
    (-128 ≤ h.default_instruments ∧ h.default_instruments ≤ 127) ∧
    (-32768 ≤ h.song_length ∧ h.song_length ≤ 32767) ∧
    (-32768 ≤ h.song_layers ∧ h.song_layers ≤ 32767) ∧
    StrOk h.song_name ∧ StrOk h.song_author ∧ StrOk h.original_author ∧
    StrOk h.description ∧
    (100 : Int) % (h.tempo.den : Int) = 0 ∧
    (-32768 ≤ pyIntTempo h.tempo ∧ pyIntTempo h.tempo ≤ 32767) ∧
    (-128 ≤ h.auto_save_duration ∧ h.auto_save_duration ≤ 127) ∧
    (-128 ≤ h.time_signature ∧ h.time_signature ≤ 127) ∧
    (-2147483648 ≤ h.minutes_spent ∧ h.minutes_spent ≤ 2147483647) ∧
    (-2147483648 ≤ h.left_clicks ∧ h.left_clicks ≤ 2147483647) ∧
    (-2147483648 ≤ h.right_clicks ∧ h.right_clicks ≤ 2147483647) ∧
    (-2147483648 ≤ h.blocks_added ∧ h.blocks_added ≤ 2147483647) ∧
    (-2147483648 ≤ h.blocks_removed ∧ h.blocks_removed ≤ 2147483647) ∧
    StrOk h.song_origin))

instance : DecidablePred WFNotes := fun l =>
  inferInstanceAs (Decidable (List.Chain' lexLt l ∧
    ∀ n ∈ l, 0 ≤ n.tick ∧ n.tick ≤ 32766 ∧
      0 ≤ n.layer ∧ n.layer ≤ 32766 ∧
      -128 ≤ n.instrument ∧ n.instrument ≤ 127 ∧
      -128 ≤ n.key ∧ n.key ≤ 127))

instance : DecidablePred WFLayer := fun l =>
  inferInstanceAs (Decidable (StrOk l.name ∧ -128 ≤ l.volume ∧
    l.volume ≤ 127 ∧ -128 ≤ l.panning ∧ l.panning ≤ 127))

instance : DecidablePred WFInstrument := fun x =>
  inferInstanceAs (Decidable (StrOk x.name ∧ StrOk x.file ∧
    -128 ≤ x.pitch ∧ x.pitch ≤ 127))

instance : DecidablePred WF := fun f =>
  inferInstanceAs (Decidable (
    WFHeader f.header ∧ WFNotes f.notes ∧
    (∀ l ∈ f.layers, WFLayer l) ∧
    f.layers.map Layer.id = (List.range' 0 f.layers.length).map Int.ofNat ∧
    (∀ x ∈ f.instruments, WFInstrument x) ∧
    f.instruments.map Instrument.id =
      (List.range' 0 f.instruments.length).map Int.ofNat ∧
    f.instruments.length ≤ 127 ∧
    f.header.song_layers = (f.layers.length : Int) ∧
    f.header.song_length =
      (match f.notes.getLast? with
       | some n => n.tick
       | none => f.header.song_length)))

/-- A small fully representable document used to witness the round trip. -/
def rtDoc : File :=
  ⟨{ defaultHeader with song_layers := 1 }, [⟨0, 0, 1, 1⟩],
   [⟨0, [], 100, 100⟩], []⟩

/-- A document with consistent header counters whose notes are not in the
on-disk order. -/
def rtCounterDoc : File :=
  ⟨{ defaultHeader with song_length := 2 },
   [⟨5, 0, 0, 0⟩, ⟨2, 0, 0, 0⟩], [], []⟩

/-- The byte stream `encode_file` produces for `rtCounterDoc`. -/
def rtCounterBytes : Bytes :=
  [0, 0, 3, 16, 2, 0, 0, 0, 0, 0, 0, 0, 0, 0, 0, 0, 0, 0, 0, 0, 0, 0, 0,
   0, 232, 3, 0, 10, 4, 0, 0, 0, 0, 0, 0, 0, 0, 0, 0, 0, 0, 0, 0, 0, 0,
   0, 0, 0, 0, 0, 0, 0, 0, 6, 0, 0, 0, 253, 255, 1, 0, 0, 0, 0, 0, 3, 0,
   1, 0, 0, 0, 0, 0, 0, 0, 0]

/-- The document decoding `rtCounterBytes` returns: the same data with the
notes re-ordered by tick. -/
def rtCounterDecoded : File :=
  ⟨{ version := 3, default_instruments := 16, song_length := 2,
     song_layers := 0, song_name := [], song_author := [],
     original_author := [], description := [],
     tempo := ((1000 : Int) : ℚ) / 100, auto_save := false,
     auto_save_duration := 10, time_signature := 4, minutes_spent := 0,
     left_clicks := 0, right_clicks := 0, blocks_added := 0,
     blocks_removed := 0, song_origin := [] },
   [⟨2, 0, 0, 0⟩, ⟨5, 0, 0, 0⟩], [], []⟩

/-- An error that a truncation can surface: end of data, or an invalid
encoding when the cut splits a multi-byte character in a string body. -/
def TErr (e : Err) : Prop :=
  e = .unexpectedEndOfData ∨ e = .invalidEncoding

/-- A parser that only ever consumes an initial segment of its input. -/
def Consumes (p : P α) : Prop :=
  ∀ s a r, p s = .ok (a, r) → ∃ c, s = c ++ r

/-- A parser whose behaviour on its consumed bytes does not look at the
remainder of the stream (as long as a remainder exists, ruling out the
short final read of `buffer.read`). -/
def LocalP (p : P α) : Prop :=
  ∀ c r r' a, r ≠ [] → p (c ++ r) = .ok (a, r) → p (c ++ r') = .ok (a, r')

/-- Truncating the consumed bytes of a successful parse makes the parser
fail with a truncation error, or succeed consuming the whole truncation
(possible when the cut lands in a string body). -/
def TruncW (p : P α) : Prop :=
  ∀ c r a, p (c ++ r) = .ok (a, r) → ∀ n, n < c.length →
    (∃ e, p (c.take n) = .error e ∧ TErr e) ∨ ∃ b, p (c.take n) = .ok (b, [])

/-- Truncating the consumed bytes always fails with a truncation error. -/
def TruncS (p : P α) : Prop :=
  ∀ c r a, p (c ++ r) = .ok (a, r) → ∀ n, n < c.length →
    ∃ e, p (c.take n) = .error e ∧ TErr e

/-- On the empty stream the parser fails with a truncation error or
succeeds consuming nothing. -/
def EmptyW (p : P α) : Prop :=
  (∃ e, p [] = .error e ∧ TErr e) ∨ ∃ b, p [] = .ok (b, [])

/-- A parser that fails on the empty stream with a truncation error. -/
def FailsEmpty (p : P α) : Prop :=
  ∃ e, p [] = .error e ∧ TErr e

/-- Consumes, tail-insensitive, and weakly truncation-safe. -/
def Good (p : P α) : Prop := Consumes p ∧ LocalP p ∧ TruncW p

/-- Consumes, tail-insensitive, and strongly truncation-safe. -/
def Strong (p : P α) : Prop := Consumes p ∧ LocalP p ∧ TruncS p

/-- `Good` together with well-behaved output on the empty stream. -/
def GoodE (p : P α) : Prop := Good p ∧ EmptyW p

/-- A 58-byte valid stream whose song name is the single character U+00E9,
encoded in UTF-8 as the two bytes 195, 169 under a length prefix of 2. -/
def sCE : Bytes :=
  [0, 0, 3, 16, 0, 0, 0, 0, 2, 0, 0, 0, 195, 169, 0, 0, 0, 0, 0, 0, 0, 0,
   0, 0, 0, 0, 232, 3, 0, 10, 4, 0, 0, 0, 0, 0, 0, 0, 0, 0, 0, 0, 0, 0,
   0, 0, 0, 0, 0, 0, 0, 0, 0, 0, 0, 0, 0, 0]

/-- The document `sCE` decodes to. -/
def docCE : File :=
  ⟨{ version := 3, default_instruments := 16, song_length := 0,
     song_layers := 0, song_name := [233], song_author := [],
     original_author := [], description := [],
     tempo := ((1000 : Int) : ℚ) / 100, auto_save := false,
     auto_save_duration := 10, time_signature := 4, minutes_spent := 0,
     left_clicks := 0, right_clicks := 0, blocks_added := 0,
     blocks_removed := 0, song_origin := [] },
   [], [], []⟩

/-! ## Round-trip lemmas for the primitive codec -/

theorem decodeByteVal_byteBytes (v : Int) (h1 : -128 ≤ v) (h2 : v ≤ 127) :
    decodeByteVal ((v % 256).toNat) = v := by
  unfold decodeByteVal
  split <;> omega

theorem decodeShortVal_shortBytes (v : Int) (h1 : -32768 ≤ v)
    (h2 : v ≤ 32767) :
    decodeShortVal ((v % 65536).toNat % 256) ((v % 65536).toNat / 256) = v := by
  unfold decodeShortVal
  split <;> omega

theorem decodeIntVal_intBytes (v : Int) (h1 : -2147483648 ≤ v)
    (h2 : v ≤ 2147483647) :
    decodeIntVal ((v % 4294967296).toNat % 256)
      ((v % 4294967296).toNat / 256 % 256)
      ((v % 4294967296).toNat / 65536 % 256)
      ((v % 4294967296).toNat / 16777216) = v := by
  unfold decodeIntVal
  split <;> omega

theorem readByte_byteBytes (v : Int) (r : Bytes) (h1 : -128 ≤ v)
    (h2 : v ≤ 127) : readByte (byteBytes v ++ r) = .ok (v, r) := by
  simp only [byteBytes, List.cons_append, List.nil_append, readByte]
  rw [decodeByteVal_byteBytes v h1 h2]

theorem readShort_shortBytes (v : Int) (r : Bytes) (h1 : -32768 ≤ v)
    (h2 : v ≤ 32767) : readShort (shortBytes v ++ r) = .ok (v, r) := by
  simp only [shortBytes, List.cons_append, List.nil_append, readShort]
  rw [decodeShortVal_shortBytes v h1 h2]

theorem readInt_intBytes (v : Int) (r : Bytes) (h1 : -2147483648 ≤ v)
    (h2 : v ≤ 2147483647) : readInt (intBytes v ++ r) = .ok (v, r) := by
  simp only [intBytes, List.cons_append, List.nil_append, readInt]
  rw [decodeIntVal_intBytes v h1 h2]

theorem packByte_ok (v : Int) (h1 : -128 ≤ v) (h2 : v ≤ 127) :
    packByte v = .ok (byteBytes v) := by
  unfold packByte
  rw [if_pos ⟨h1, h2⟩]

theorem packShort_ok (v : Int) (h1 : -32768 ≤ v) (h2 : v ≤ 32767) :
    packShort v = .ok (shortBytes v) := by
  unfold packShort
  rw [if_pos ⟨h1, h2⟩]

theorem packInt_ok (v : Int) (h1 : -2147483648 ≤ v) (h2 : v ≤ 2147483647) :
    packInt v = .ok (intBytes v) := by
  unfold packInt
  rw [if_pos ⟨h1, h2⟩]

theorem packByte_ok_elim {v : Int} {bs : Bytes} (h : packByte v = .ok bs) :
    bs = byteBytes v ∧ -128 ≤ v ∧ v ≤ 127 := by
  unfold packByte at h
  split at h
  · cases h; simp_all
  · cases h

theorem packShort_ok_elim {v : Int} {bs : Bytes} (h : packShort v = .ok bs) :
    bs = shortBytes v ∧ -32768 ≤ v ∧ v ≤ 32767 := by
  unfold packShort at h
  split at h
  · cases h; simp_all
  · cases h

theorem packInt_ok_elim {v : Int} {bs : Bytes} (h : packInt v = .ok bs) :
    bs = intBytes v ∧ -2147483648 ≤ v ∧ v ≤ 2147483647 := by
  unfold packInt at h
  split at h
  · cases h; simp_all
  · cases h

theorem byteBytes_length (v : Int) : (byteBytes v).length = 1 := rfl

theorem shortBytes_length (v : Int) : (shortBytes v).length = 2 := rfl

theorem intBytes_length (v : Int) : (intBytes v).length = 4 := rfl

theorem exceptBind_ok_left {α β : Type} (v : α) (k : α → Except Err β) :
    (Except.ok v >>= k) = k v := rfl

theorem exceptBind_error_left {α β : Type} (e : Err)
    (k : α → Except Err β) :
    ((Except.error e : Except Err α) >>= k) = .error e := rfl

/-- Splitting a successful `Except` bind. -/
theorem exceptBind_ok {α β : Type} {a : Except Err α} {k : α → Except Err β}
    {b : β} (h : a >>= k = .ok b) : ∃ v, a = .ok v ∧ k v = .ok b := by
  cases a with
  | error e => simp [Bind.bind, Except.bind] at h
  | ok v => exact ⟨v, rfl, h⟩

/-! ## ASCII strings -/

theorem utf8Encode_ascii (s : PyStr) (h : ∀ c ∈ s, c < 128) :
    utf8Encode s = s := by
  induction s with
  | nil => rfl
  | cons c cs ih =>
    have hc : c < 128 := h c (by simp)
    simp only [utf8Encode, List.map_cons, List.flatten_cons] at *
    rw [utf8EncodeChar, if_pos hc, ih fun x hx => h x (by simp [hx])]
    rfl

theorem utf8Two_length {b : Nat} {s : Bytes} {cp : Nat} {r : Bytes}
    (h : utf8Two b s = some (cp, r)) : r.length < s.length := by
  cases s with
  | nil => simp [utf8Two] at h
  | cons c1 t =>
    by_cases hc : isCont c1
    · simp [utf8Two, hc] at h
      obtain ⟨h1, h2⟩ := h
      subst h2
      simp
    · simp [utf8Two, hc] at h

theorem utf8Three_length {b : Nat} {s : Bytes} {cp : Nat} {r : Bytes}
    (h : utf8Three b s = some (cp, r)) : r.length < s.length := by
  match s with
  | [] => simp [utf8Three] at h
  | [c1] => simp [utf8Three] at h
  | c1 :: c2 :: t =>
    by_cases hc : isCont c1 && isCont c2
    · simp only [utf8Three, hc, if_true] at h
      split at h
      · cases h
      · simp only [Option.some.injEq, Prod.mk.injEq] at h
        obtain ⟨h1, h2⟩ := h
        subst h2
        simp only [List.length_cons]
        omega
    · simp [utf8Three, hc] at h

theorem utf8Four_length {b : Nat} {s : Bytes} {cp : Nat} {r : Bytes}
    (h : utf8Four b s = some (cp, r)) : r.length < s.length := by
  match s with
  | [] => simp [utf8Four] at h
  | [c1] => simp [utf8Four] at h
  | [c1, c2] => simp [utf8Four] at h
  | c1 :: c2 :: c3 :: t =>
    by_cases hc : isCont c1 && isCont c2 && isCont c3
    · simp only [utf8Four, hc, if_true] at h
      split at h
      · cases h
      · simp only [Option.some.injEq, Prod.mk.injEq] at h
        obtain ⟨h1, h2⟩ := h
        subst h2
        simp only [List.length_cons]
        omega
    · simp [utf8Four, hc] at h

theorem utf8DecodeOne_length {s : Bytes} {cp : Nat} {r : Bytes}
    (h : utf8DecodeOne s = some (cp, r)) : r.length < s.length := by
  cases s with
  | nil => simp [utf8DecodeOne] at h
  | cons b rest =>
    simp only [utf8DecodeOne] at h
    split_ifs at h
    · cases h; simp
    · exact (utf8Two_length h).trans (by simp)
    · exact (utf8Three_length h).trans (by simp)
    · exact (utf8Four_length h).trans (by simp)

theorem utf8DecodeLoop_congr {fuel fuel' : Nat} (s : Bytes)
    (h : s.length < fuel) (h' : s.length < fuel') :
    utf8DecodeLoop fuel s = utf8DecodeLoop fuel' s := by
  induction fuel generalizing fuel' s with
  | zero => omega
  | succ n ih =>
    cases s with
    | nil =>
      cases fuel' with
      | zero => omega
      | succ m => rfl
    | cons b rest =>
      cases fuel' with
      | zero => omega
      | succ m =>
        simp only [utf8DecodeLoop]
        cases ho : utf8DecodeOne (b :: rest) with
        | none => rfl
        | some v =>
          obtain ⟨cp, r⟩ := v
          have hlen := utf8DecodeOne_length ho
          simp only [List.length_cons] at h h' hlen
          have hb : r.length < n := by omega
          have hb' : r.length < m := by omega
          simp only
          rw [show utf8DecodeLoop n r = utf8DecodeLoop m r from ih r hb hb']

theorem utf8Decode_cons (b : Nat) (rest : Bytes) :
    utf8Decode (b :: rest) =
      match utf8DecodeOne (b :: rest) with
      | none => none
      | some (cp, r) => (utf8Decode r).map (cp :: ·) := by
  unfold utf8Decode
  rw [utf8DecodeLoop]
  cases ho : utf8DecodeOne (b :: rest) with
  | none => rfl
  | some v =>
    obtain ⟨cp, r⟩ := v
    have hlen := utf8DecodeOne_length ho
    simp only [List.length_cons] at hlen
    exact congrArg (Option.map (cp :: ·))
      (utf8DecodeLoop_congr r (by simp only [List.length_cons]; omega)
        (by omega))

theorem utf8DecodeOne_lt (c : Nat) (cs : Bytes) (hc : c < 128) :
    utf8DecodeOne (c :: cs) = some (c, cs) := by
  unfold utf8DecodeOne
  exact if_pos hc

theorem utf8Decode_ascii (s : Bytes) (h : ∀ c ∈ s, c < 128) :
    utf8Decode s = some s := by
  induction s with
  | nil => rfl
  | cons c cs ih =>
    rw [utf8Decode_cons, utf8DecodeOne_lt c cs (h c (by simp))]
    show (utf8Decode cs).map (c :: ·) = some (c :: cs)
    rw [ih fun x hx => h x (by simp [hx])]
    rfl

theorem read_string_ascii (s : PyStr) (r : Bytes) (h : ∀ c ∈ s, c < 128)
    (hl : s.length ≤ 2147483647) :
    read_string ((intBytes (s.length : Int) ++ utf8Encode s) ++ r) =
      .ok (s, r) := by
  rw [read_string, List.append_assoc,
    readInt_intBytes (s.length : Int) (utf8Encode s ++ r) (by omega) (by omega)]
  have hnot : ¬ ((s.length : Int) < 0) := by omega
  rw [utf8Encode_ascii s h]
  simp only [hnot, if_false, Int.toNat_natCast]
  rw [List.take_left, List.drop_left, utf8Decode_ascii s h]

theorem utf8Encodable_of_ascii {s : PyStr} (h : ∀ c ∈ s, c < 128) :
    ∀ c ∈ s, utf8Encodable c = true := by
  intro c hc
  have := h c hc
  simp only [utf8Encodable, Bool.or_eq_true, Bool.and_eq_true,
    decide_eq_true_eq]
  omega

theorem encode_string_ok (s : PyStr) (hl : s.length ≤ 2147483647)
    (he : ∀ c ∈ s, utf8Encodable c = true) :
    encode_string s = .ok (intBytes (s.length : Int) ++ utf8Encode s) := by
  rw [encode_string, packInt_ok (s.length : Int) (by omega) (by omega)]
  show (if s.all utf8Encodable
      then (.ok (intBytes (s.length : Int) ++ utf8Encode s) :
        Except Err Bytes)
      else .error .encodeError) =
    .ok (intBytes (s.length : Int) ++ utf8Encode s)
  rw [if_pos (List.all_eq_true.mpr he)]

/-! ## Claim C2: behaviour of the chord grouping on the spec's example -/

/-- C2: on the unordered note collection `[(5,1),(5,0),(2,3)]` the chord
grouping of `File.__iter__` does NOT yield `(2,[layer3]), (5,[layer0,
layer1])`: because `current_tick` is initialised from the head of the
unsorted list, it first yields the spurious pair `(5, [])`, and the final
chord is yielded without the layer sort, so the layer-1 note precedes the
layer-0 note.  On an empty collection it does yield the empty sequence. -/
theorem fileChords_spec_example :
    fileChords ⟨defaultHeader, [⟨5, 1, 0, 0⟩, ⟨5, 0, 0, 0⟩, ⟨2, 3, 0, 0⟩],
        [], []⟩ =
      [(5, []), (2, [⟨2, 3, 0, 0⟩]), (5, [⟨5, 1, 0, 0⟩, ⟨5, 0, 0, 0⟩])] ∧
    fileChords ⟨defaultHeader, [⟨5, 1, 0, 0⟩, ⟨5, 0, 0, 0⟩, ⟨2, 3, 0, 0⟩],
        [], []⟩ ≠
      [(2, [⟨2, 3, 0, 0⟩]), (5, [⟨5, 0, 0, 0⟩, ⟨5, 1, 0, 0⟩])] ∧
    fileChords ⟨defaultHeader, [], [], []⟩ = [] := by
  decide

/-! ## Claim C3: header normalization before saving -/

/-- C3 counterexample: on a document with no notes and a stale
`song_length` of 7, `update_header` leaves 7 in place, not the claimed 0
(`File.update_header` has no else branch for the empty case). -/
theorem update_header_empty_stale :
    (update_header ⟨{ defaultHeader with song_length := 7 }, [], [],
        []⟩).header.song_length = 7 ∧ (7 : Int) ≠ 0 := by
  decide

/-! ## Claim C4: the jump-sequence decoder -/

/-- C4 counterexample: the 16-bit values are signed, so a negative jump
(here -1, encoded as `FF FF`) makes the decoder yield -2, which is neither
non-negative nor part of an increasing run from -1. -/
theorem jump_negative_counterexample :
    jump [255, 255, 0, 0] = .ok ([-2], []) ∧ ¬ (0 ≤ (-2 : Int)) := by
  decide

theorem jumpRun_encoded (js : List Int) : ∀ (acc : Int) (r : Bytes),
    (∀ j ∈ js, 1 ≤ j ∧ j ≤ 32767) →
    jumpRun acc ((js.map shortBytes).flatten ++ shortBytes 0 ++ r) =
      .ok (jumpVals acc js, r) ∧
    List.Chain (· < ·) acc (jumpVals acc js) := by
  induction js with
  | nil =>
    intro acc r _
    constructor
    · show jumpRun acc (shortBytes 0 ++ r) = .ok ([], r)
      have h0 : shortBytes 0 = [0, 0] := rfl
      rw [h0]
      rfl
    · exact List.Chain.nil
  | cons j js ih =>
    intro acc r hpos
    have hj := hpos j (by simp)
    have hjs : ∀ x ∈ js, 1 ≤ x ∧ x ≤ 32767 := fun x hx => hpos x (by simp [hx])
    obtain ⟨ihRun, ihChain⟩ := ih (acc + j) r hjs
    have hdec : decodeShortVal ((j % 65536).toNat % 256)
        ((j % 65536).toNat / 256) = j :=
      decodeShortVal_shortBytes j (by omega) (by omega)
    constructor
    · show jumpRun acc (shortBytes j ++
        ((js.map shortBytes).flatten ++ shortBytes 0 ++ r)) = _
      rw [shortBytes, List.cons_append, List.cons_append, jumpRun, hdec,
        if_neg (by omega)]
      rw [List.nil_append, ihRun]
      rfl
    · exact List.Chain.cons (by omega) ihChain

/-- C4, amended: the decoder reads signed 16-bit values, terminates on 0
and otherwise accumulates from -1 and yields the accumulator; when every
jump read before the terminator is positive, the yielded sequence is
strictly increasing and non-negative. -/
theorem jump_pos_spec (js : List Int) (r : Bytes)
    (hpos : ∀ j ∈ js, 1 ≤ j ∧ j ≤ 32767) :
    jump ((js.map shortBytes).flatten ++ shortBytes 0 ++ r) =
      .ok (jumpVals (-1) js, r) ∧
    List.Chain' (· < ·) (jumpVals (-1) js) ∧
    ∀ v ∈ jumpVals (-1) js, 0 ≤ v := by
  obtain ⟨hrun, hchain⟩ := jumpRun_encoded js (-1) r hpos
  refine ⟨hrun, List.Chain'.tail (l := -1 :: jumpVals (-1) js) hchain, ?_⟩
  have : ∀ (acc : Int) (l : List Int), List.Chain (· < ·) acc l →
      ∀ v ∈ l, acc < v := by
    intro acc l hl
    induction hl with
    | nil => simp
    | @cons a b l hab _ ihl =>
      intro v hv
      rcases List.mem_cons.mp hv with rfl | hv'
      · exact hab
      · exact lt_trans hab (ihl v hv')
  intro v hv
  have := this (-1) _ hchain v hv
  omega

/-- Closed witness for `jump_pos_spec` at the jump list `[1, 5]`. -/
theorem jump_pos_spec_witness :
    jump ((([1, 5] : List Int).map shortBytes).flatten ++ shortBytes 0 ++
        []) = .ok (jumpVals (-1) [1, 5], []) ∧
    List.Chain' (· < ·) (jumpVals (-1) [1, 5]) ∧
    ∀ v ∈ jumpVals (-1) [1, 5], 0 ≤ v :=
  jump_pos_spec [1, 5] [] (by decide)

/-! ## Claim C5: encoding the tick set 0, 5, 5, 100 -/

/-- C5 counterexample: for the document with notes at ticks 0, 5, 5, 100
(the tick-5 notes on layers 2 and 7), the tick-level deltas written are
`1, 5, 95`, not the claimed `1, 6, 96`. -/
theorem tickDeltas_example :
    tickDeltas ⟨{ defaultHeader with song_length := 100 },
        [⟨0, 0, 5, 5⟩, ⟨5, 2, 6, 6⟩, ⟨5, 7, 7, 7⟩, ⟨100, 0, 8, 8⟩], [], []⟩ =
      [1, 5, 95] ∧
    ([1, 5, 95] : List Int) ≠ [1, 6, 96] := by
  decide

/-- C5, amended: the tick-level deltas written for this document are
`1, 5, 95`, all nonzero, and decoding the encoded note section reproduces
the notes at ticks `[0, 5, 5, 100]` with the two tick-5 notes on layers 2
and 7. -/
theorem write_notes_example_roundtrip :
    tickDeltas ⟨{ defaultHeader with song_length := 100 },
        [⟨0, 0, 5, 5⟩, ⟨5, 2, 6, 6⟩, ⟨5, 7, 7, 7⟩, ⟨100, 0, 8, 8⟩], [], []⟩ =
      [1, 5, 95] ∧
    (∀ d ∈ tickDeltas ⟨{ defaultHeader with song_length := 100 },
        [⟨0, 0, 5, 5⟩, ⟨5, 2, 6, 6⟩, ⟨5, 7, 7, 7⟩, ⟨100, 0, 8, 8⟩], [], []⟩,
      d ≠ 0) ∧
    write_notes ⟨{ defaultHeader with song_length := 100 },
        [⟨0, 0, 5, 5⟩, ⟨5, 2, 6, 6⟩, ⟨5, 7, 7, 7⟩, ⟨100, 0, 8, 8⟩], [], []⟩ =
      .ok [1, 0, 1, 0, 5, 5, 0, 0, 5, 0, 3, 0, 6, 6, 5, 0, 7, 7, 0, 0,
           95, 0, 1, 0, 8, 8, 0, 0, 0, 0] ∧
    parse_notes [1, 0, 1, 0, 5, 5, 0, 0, 5, 0, 3, 0, 6, 6, 5, 0, 7, 7, 0, 0,
           95, 0, 1, 0, 8, 8, 0, 0, 0, 0] =
      .ok ([⟨0, 0, 5, 5⟩, ⟨5, 2, 6, 6⟩, ⟨5, 7, 7, 7⟩, ⟨100, 0, 8, 8⟩], []) ∧
    ([⟨0, 0, 5, 5⟩, ⟨5, 2, 6, 6⟩, ⟨5, 7, 7, 7⟩,
        (⟨100, 0, 8, 8⟩ : Note)].map Note.tick) = [0, 5, 5, 100] ∧
    (([⟨0, 0, 5, 5⟩, ⟨5, 2, 6, 6⟩, ⟨5, 7, 7, 7⟩,
        (⟨100, 0, 8, 8⟩ : Note)].filter (fun n => n.tick == 5)).map
      Note.layer) = [2, 7] := by
  decide

/-! ## Claim C6: rejection of the legacy format marker -/

theorem noDeprecated_pbind {p : P α} {f : α → P β} (hp : NoDeprecated p)
    (hf : ∀ a, NoDeprecated (f a)) : NoDeprecated (pbind p f) := by
  intro s e h
  unfold pbind at h
  cases hps : p s with
  | error e2 =>
    rw [hps] at h
    injection h with he
    subst he
    exact hp s _ hps
  | ok v =>
    rw [hps] at h
    exact hf v.1 v.2 e h

theorem noDeprecated_ppure (a : α) : NoDeprecated (ppure a) := by
  intro s e h
  cases h

theorem noDeprecated_readByte : NoDeprecated readByte := by
  intro s e h
  cases s with
  | nil => cases h; simp
  | cons b t => cases h

theorem noDeprecated_readShort : NoDeprecated readShort := by
  intro s e h
  match s with
  | [] => cases h; simp
  | [b0] => cases h; simp
  | b0 :: b1 :: t => cases h

theorem noDeprecated_readInt : NoDeprecated readInt := by
  intro s e h
  match s with
  | [] => cases h; simp
  | [b0] => cases h; simp
  | [b0, b1] => cases h; simp
  | [b0, b1, b2] => cases h; simp
  | b0 :: b1 :: b2 :: b3 :: t => cases h

theorem noDeprecated_read_string : NoDeprecated read_string := by
  intro s e h
  unfold read_string at h
  cases hri : readInt s with
  | error e2 =>
    rw [hri] at h
    injection h with he
    subst he
    exact noDeprecated_readInt s _ hri
  | ok v =>
    rw [hri] at h
    obtain ⟨len, rest⟩ := v
    simp only at h
    cases hd : utf8Decode (if len < 0 then rest else rest.take len.toNat) with
    | none => rw [hd] at h; cases h; simp
    | some str => rw [hd] at h; cases h

theorem noDeprecated_parseHeaderTail : NoDeprecated parseHeaderTail := by
  unfold parseHeaderTail
  refine noDeprecated_pbind noDeprecated_readByte fun _ => ?_
  refine noDeprecated_pbind noDeprecated_readByte fun _ => ?_
  refine noDeprecated_pbind noDeprecated_readShort fun _ => ?_
  refine noDeprecated_pbind noDeprecated_readShort fun _ => ?_
  refine noDeprecated_pbind noDeprecated_read_string fun _ => ?_
  refine noDeprecated_pbind noDeprecated_read_string fun _ => ?_
  refine noDeprecated_pbind noDeprecated_read_string fun _ => ?_
  refine noDeprecated_pbind noDeprecated_read_string fun _ => ?_
  refine noDeprecated_pbind noDeprecated_readShort fun _ => ?_
  refine noDeprecated_pbind noDeprecated_readByte fun _ => ?_
  refine noDeprecated_pbind noDeprecated_readByte fun _ => ?_
  refine noDeprecated_pbind noDeprecated_readByte fun _ => ?_
  refine noDeprecated_pbind noDeprecated_readInt fun _ => ?_
  refine noDeprecated_pbind noDeprecated_readInt fun _ => ?_
  refine noDeprecated_pbind noDeprecated_readInt fun _ => ?_
  refine noDeprecated_pbind noDeprecated_readInt fun _ => ?_
  refine noDeprecated_pbind noDeprecated_readInt fun _ => ?_
  refine noDeprecated_pbind noDeprecated_read_string fun _ => ?_
  exact noDeprecated_ppure _

/-- C6: a stream whose leading 16-bit value is nonzero fails header
parsing with the deprecated-format error, independently of everything
after the two marker bytes; a zero marker never produces that error. -/
theorem parse_header_marker (b0 b1 : Nat) (rest : Bytes) :
    (decodeShortVal b0 b1 ≠ 0 →
      parse_header (b0 :: b1 :: rest) = .error .deprecatedFormat) ∧
    (decodeShortVal b0 b1 = 0 →
      ∀ e, parse_header (b0 :: b1 :: rest) = .error e →
        e ≠ .deprecatedFormat) := by
  constructor
  · intro hne
    unfold parse_header pbind
    rw [show readShort (b0 :: b1 :: rest) =
      .ok (decodeShortVal b0 b1, rest) from rfl]
    simp only [if_neg hne]
    rfl
  · intro h0 e he
    unfold parse_header pbind at he
    rw [show readShort (b0 :: b1 :: rest) =
      .ok (decodeShortVal b0 b1, rest) from rfl] at he
    simp only [h0, if_pos] at he
    exact noDeprecated_parseHeaderTail rest e he

/-- Closed witness for `parse_header_marker`: marker value 1 (bytes
`01 00`) is rejected as deprecated; marker 0 with a truncated stream fails
with a different error. -/
theorem parse_header_marker_witness :
    parse_header [1, 0] = .error .deprecatedFormat ∧
    ∀ e, parse_header [0, 0] = .error e → e ≠ .deprecatedFormat :=
  ⟨(parse_header_marker 1 0 []).1 (by decide),
   (parse_header_marker 0 0 []).2 (by decide)⟩

/-! ## Claim C8: the string codec -/

/-- C8 counterexample: `encode_string` writes `len(value)` — the character
count — as the prefix, not the byte count of the encoded text: for the
one-character string `'é'` (code point 233) the prefix is 1 while 2 bytes
follow, and reading the result back fails on the truncated UTF-8 sequence
instead of returning the string. -/
theorem encode_string_char_count :
    encode_string [233] = .ok [1, 0, 0, 0, 195, 169] ∧
    decodeIntVal 1 0 0 0 = 1 ∧
    ([195, 169] : Bytes).length = 2 ∧ (1 : Int) ≠ 2 ∧
    read_string [1, 0, 0, 0, 195, 169] = .error .invalidEncoding := by
  decide

/-- C8, amended: the prefix is the character count; for strings whose code
points are all ASCII it coincides with the byte count of the encoded text
that follows, and `read_string` reads exactly that many bytes back and
returns the string. -/
theorem encode_read_string_ascii (s : PyStr) (r : Bytes)
    (h : ∀ c ∈ s, c < 128) (hl : s.length ≤ 2147483647) :
    encode_string s = .ok (intBytes (s.length : Int) ++ utf8Encode s) ∧
    (utf8Encode s).length = s.length ∧
    read_string ((intBytes (s.length : Int) ++ utf8Encode s) ++ r) =
      .ok (s, r) := by
  refine ⟨encode_string_ok s hl (utf8Encodable_of_ascii h), ?_,
    read_string_ascii s r h hl⟩
  rw [utf8Encode_ascii s h]

/-- Closed witness for `encode_read_string_ascii` at the two-character
ASCII string `hi`. -/
theorem encode_read_string_ascii_witness :
    encode_string [104, 105] =
      .ok (intBytes (([104, 105] : PyStr).length : Int) ++
        utf8Encode [104, 105]) ∧
    (utf8Encode [104, 105]).length = ([104, 105] : PyStr).length ∧
    read_string ((intBytes (([104, 105] : PyStr).length : Int) ++
        utf8Encode [104, 105]) ++ [7]) = .ok ([104, 105], [7]) :=
  encode_read_string_ascii [104, 105] [7] (by decide) (by decide)

/-! ## Unfolding lemmas for the note-grid parser -/

theorem parseNotesInner_nil (t a : Int) :
    parseNotesInner t a [] = .error .unexpectedEndOfData := rfl

theorem parseNotesInner_one (t a : Int) (b0 : Nat) :
    parseNotesInner t a [b0] = .error .unexpectedEndOfData := rfl

theorem parseNotesInner_term (t a : Int) (b0 b1 : Nat) (rest : Bytes)
    (hj : decodeShortVal b0 b1 = 0) :
    parseNotesInner t a (b0 :: b1 :: rest) = .ok ([], rest) := by
  match rest with
  | [] =>
    rw [parseNotesInner.eq_2 t a b0 b1 []
      (by intro bi bk r2 hh; cases hh), if_pos hj]
  | [bi] =>
    rw [parseNotesInner.eq_2 t a b0 b1 [bi]
      (by intro bi2 bk r2 hh; simp at hh), if_pos hj]
  | bi :: bk :: rest2 =>
    rw [parseNotesInner.eq_1, if_pos hj]

theorem parseNotesInner_two (t a : Int) (b0 b1 : Nat)
    (hj : decodeShortVal b0 b1 ≠ 0) :
    parseNotesInner t a [b0, b1] = .error .unexpectedEndOfData := by
  rw [parseNotesInner.eq_2 t a b0 b1 []
    (by intro bi bk r2 hh; cases hh), if_neg hj]

theorem parseNotesInner_three (t a : Int) (b0 b1 bi : Nat)
    (hj : decodeShortVal b0 b1 ≠ 0) :
    parseNotesInner t a [b0, b1, bi] = .error .unexpectedEndOfData := by
  rw [parseNotesInner.eq_2 t a b0 b1 [bi]
    (by intro bi2 bk r2 hh; simp at hh), if_neg hj]

theorem parseNotesInner_step (t a : Int) (b0 b1 bi bk : Nat) (rest2 : Bytes)
    (hj : decodeShortVal b0 b1 ≠ 0) :
    parseNotesInner t a (b0 :: b1 :: bi :: bk :: rest2) =
      match parseNotesInner t (a + decodeShortVal b0 b1) rest2 with
      | .ok (ns, r) =>
        .ok (⟨t, a + decodeShortVal b0 b1, decodeByteVal bi,
              decodeByteVal bk⟩ :: ns, r)
      | .error e => .error e := by
  rw [parseNotesInner.eq_1, if_neg hj]

theorem parseNotesGo_fuelZero (acc : Int) (s : Bytes) :
    parseNotesGo 0 acc s = .error .unexpectedEndOfData := rfl

theorem parseNotesGo_nil (fuel : Nat) (acc : Int) :
    parseNotesGo (fuel + 1) acc [] = .error .unexpectedEndOfData := rfl

theorem parseNotesGo_one (fuel : Nat) (acc : Int) (b0 : Nat) :
    parseNotesGo (fuel + 1) acc [b0] = .error .unexpectedEndOfData := rfl

theorem parseNotesGo_term (fuel : Nat) (acc : Int) (b0 b1 : Nat)
    (rest : Bytes) (hj : decodeShortVal b0 b1 = 0) :
    parseNotesGo (fuel + 1) acc (b0 :: b1 :: rest) = .ok ([], rest) := by
  show (if decodeShortVal b0 b1 = 0 then (.ok ([], rest) :
      Except Err (List Note × Bytes)) else _) = _
  rw [if_pos hj]

theorem parseNotesGo_step (fuel : Nat) (acc : Int) (b0 b1 : Nat)
    (rest : Bytes) (hj : decodeShortVal b0 b1 ≠ 0) :
    parseNotesGo (fuel + 1) acc (b0 :: b1 :: rest) =
      match parseNotesInner (acc + decodeShortVal b0 b1) (-1) rest with
      | .ok (ns, r) =>
        match parseNotesGo fuel (acc + decodeShortVal b0 b1) r with
        | .ok (ns2, r2) => .ok (ns ++ ns2, r2)
        | .error e => .error e
      | .error e => .error e := by
  show (if decodeShortVal b0 b1 = 0 then (.ok ([], rest) :
      Except Err (List Note × Bytes)) else _) = _
  rw [if_neg hj]

/-- Every successful run of the inner note loop consumes a prefix of at
least two bytes of its input. -/
theorem parseNotesInner_consumes (t a : Int) (s : Bytes) (ns : List Note)
    (r : Bytes) (h : parseNotesInner t a s = .ok (ns, r)) :
    ∃ c, s = c ++ r ∧ 2 ≤ c.length := by
  match s with
  | [] => rw [parseNotesInner_nil] at h; cases h
  | [b0] => rw [parseNotesInner_one] at h; cases h
  | b0 :: b1 :: rest =>
    by_cases hj : decodeShortVal b0 b1 = 0
    · rw [parseNotesInner_term t a b0 b1 rest hj] at h
      injection h with h1
      injection h1 with h2 h3
      subst h3
      exact ⟨[b0, b1], rfl, by simp⟩
    · match rest with
      | [] => rw [parseNotesInner_two t a b0 b1 hj] at h; cases h
      | [bi] => rw [parseNotesInner_three t a b0 b1 bi hj] at h; cases h
      | bi :: bk :: rest2 =>
        rw [parseNotesInner_step t a b0 b1 bi bk rest2 hj] at h
        cases hrec : parseNotesInner t (a + decodeShortVal b0 b1) rest2 with
        | error e => rw [hrec] at h; cases h
        | ok v =>
          obtain ⟨ns2, r2⟩ := v
          rw [hrec] at h
          injection h with h1
          injection h1 with h2 h3
          subst h3
          obtain ⟨c, hc, hcl⟩ :=
            parseNotesInner_consumes t (a + decodeShortVal b0 b1) rest2 ns2
              r2 hrec
          exact ⟨b0 :: b1 :: bi :: bk :: c, by simp [hc], by simp⟩

theorem decodeByteVal_range (b : Nat) (hb : b < 256) :
    -128 ≤ decodeByteVal b ∧ decodeByteVal b ≤ 127 := by
  unfold decodeByteVal
  split <;> omega

/-! ## Claim C9: ranges of decoded instrument and key fields -/

theorem parseNotesInner_ranges (t a : Int) (s : Bytes) (ns : List Note)
    (r : Bytes) (hb : ∀ b ∈ s, b < 256)
    (h : parseNotesInner t a s = .ok (ns, r)) :
    ∀ n ∈ ns, (-128 ≤ n.instrument ∧ n.instrument ≤ 127) ∧
      (-128 ≤ n.key ∧ n.key ≤ 127) := by
  match s with
  | [] => rw [parseNotesInner_nil] at h; cases h
  | [b0] => rw [parseNotesInner_one] at h; cases h
  | b0 :: b1 :: rest =>
    by_cases hj : decodeShortVal b0 b1 = 0
    · rw [parseNotesInner_term t a b0 b1 rest hj] at h
      injection h with h1
      injection h1 with h2 h3
      subst h2
      simp
    · match rest with
      | [] => rw [parseNotesInner_two t a b0 b1 hj] at h; cases h
      | [bi] => rw [parseNotesInner_three t a b0 b1 bi hj] at h; cases h
      | bi :: bk :: rest2 =>
        rw [parseNotesInner_step t a b0 b1 bi bk rest2 hj] at h
        cases hrec : parseNotesInner t (a + decodeShortVal b0 b1) rest2 with
        | error e => rw [hrec] at h; cases h
        | ok v =>
          obtain ⟨ns2, r2⟩ := v
          rw [hrec] at h
          injection h with h1
          injection h1 with h2 h3
          subst h2
          intro n hn
          rcases List.mem_cons.mp hn with rfl | hn2
          · exact ⟨decodeByteVal_range bi (hb bi (by simp)),
              decodeByteVal_range bk (hb bk (by simp))⟩
          · exact parseNotesInner_ranges t (a + decodeShortVal b0 b1) rest2
              ns2 r2 (fun b hbm => hb b (by simp [hbm])) hrec n hn2

theorem parseNotesGo_ranges (fuel : Nat) (acc : Int) (s : Bytes)
    (ns : List Note) (r : Bytes) (hb : ∀ b ∈ s, b < 256)
    (h : parseNotesGo fuel acc s = .ok (ns, r)) :
    ∀ n ∈ ns, (-128 ≤ n.instrument ∧ n.instrument ≤ 127) ∧
      (-128 ≤ n.key ∧ n.key ≤ 127) := by
  induction fuel generalizing acc s ns r with
  | zero => rw [parseNotesGo_fuelZero] at h; cases h
  | succ fuel ih =>
    match s with
    | [] => rw [parseNotesGo_nil] at h; cases h
    | [b0] => rw [parseNotesGo_one] at h; cases h
    | b0 :: b1 :: rest =>
      by_cases hj : decodeShortVal b0 b1 = 0
      · rw [parseNotesGo_term fuel acc b0 b1 rest hj] at h
        injection h with h1
        injection h1 with h2 h3
        subst h2
        simp
      · rw [parseNotesGo_step fuel acc b0 b1 rest hj] at h
        cases hrec : parseNotesInner (acc + decodeShortVal b0 b1) (-1)
            rest with
        | error e => rw [hrec] at h; cases h
        | ok v =>
          obtain ⟨ns1, r1⟩ := v
          rw [hrec] at h
          replace h : (match parseNotesGo fuel
              (acc + decodeShortVal b0 b1) r1 with
            | .ok (ns2, r2) => (.ok (ns1 ++ ns2, r2) :
                Except Err (List Note × Bytes))
            | .error e => .error e) = .ok (ns, r) := h
          cases hrec2 : parseNotesGo fuel (acc + decodeShortVal b0 b1)
              r1 with
          | error e => rw [hrec2] at h; cases h
          | ok v2 =>
            obtain ⟨ns2, r2⟩ := v2
            rw [hrec2] at h
            injection h with h1
            injection h1 with h2 h3
            subst h2
            have hbr : ∀ b ∈ rest, b < 256 := fun b hbm => hb b (by simp [hbm])
            have hbr1 : ∀ b ∈ r1, b < 256 := by
              obtain ⟨c, hc, _⟩ :=
                parseNotesInner_consumes _ _ _ _ _ hrec
              intro b hbm
              exact hbr b (by rw [hc]; simp [hbm])
            intro n hn
            rcases List.mem_append.mp hn with hn1 | hn2
            · exact parseNotesInner_ranges _ _ _ _ _ hbr hrec n hn1
            · exact ih _ _ _ _ hbr1 hrec2 n hn2

/-- C9, amended: over a stream of byte values, every note produced by the
note-grid decoder has its instrument and key in the signed byte range
-128 to 127 (the fields are read with the signed `BYTE` struct). -/
theorem parse_notes_ranges (s : Bytes) (ns : List Note) (r : Bytes)
    (hb : ∀ b ∈ s, b < 256) (h : parse_notes s = .ok (ns, r)) :
    ∀ n ∈ ns, (-128 ≤ n.instrument ∧ n.instrument ≤ 127) ∧
      (-128 ≤ n.key ∧ n.key ≤ 127) :=
  parseNotesGo_ranges (s.length + 1) (-1) s ns r hb h

/-- Closed witness for `parse_notes_ranges` on a two-note stream. -/
theorem parse_notes_ranges_witness :
    (∀ b ∈ ([1, 0, 1, 0, 255, 0, 0, 0, 0, 0] : Bytes), b < 256) ∧
    parse_notes [1, 0, 1, 0, 255, 0, 0, 0, 0, 0] =
      .ok ([⟨0, 0, -1, 0⟩], []) ∧
    ∀ n ∈ ([⟨0, 0, -1, 0⟩] : List Note),
      (-128 ≤ n.instrument ∧ n.instrument ≤ 127) ∧
      (-128 ≤ n.key ∧ n.key ≤ 127) :=
  ⟨by decide, by decide,
   parse_notes_ranges [1, 0, 1, 0, 255, 0, 0, 0, 0, 0] [⟨0, 0, -1, 0⟩] []
     (by decide) (by decide)⟩

/-- C9 counterexample: the instrument byte 255 decodes to -1, which is not
in the claimed range 0-255. -/
theorem parse_notes_not_unsigned :
    parse_notes [1, 0, 1, 0, 255, 0, 0, 0, 0, 0] =
      .ok ([⟨0, 0, -1, 0⟩], []) ∧
    ¬ (0 ≤ (-1 : Int) ∧ (-1 : Int) ≤ 255) := by
  decide

/-! ## Claim C10: the instrument count is a signed byte -/

theorem writeInstrumentsList_ok (l : List Instrument)
    (hf : ∀ i ∈ l, -128 ≤ i.pitch ∧ i.pitch ≤ 127 ∧
      i.name.length ≤ 2147483647 ∧ i.file.length ≤ 2147483647 ∧
      (∀ c ∈ i.name, utf8Encodable c = true) ∧
      (∀ c ∈ i.file, utf8Encodable c = true)) :
    ∃ bs, writeInstrumentsList l = .ok bs := by
  induction l with
  | nil => exact ⟨[], rfl⟩
  | cons i rest ih =>
    obtain ⟨hp1, hp2, hn, hfl, hne, hfe⟩ := hf i (by simp)
    obtain ⟨bs, hbs⟩ := ih fun x hx => hf x (by simp [hx])
    have hpk : packByte (if i.press_key then 1 else 0) =
        .ok (byteBytes (if i.press_key then 1 else 0)) := by
      cases i.press_key <;> simp [packByte]
    rw [writeInstrumentsList, encode_string_ok i.name hn hne,
      exceptBind_ok_left, encode_string_ok i.file hfl hfe,
      exceptBind_ok_left,
      packByte_ok i.pitch hp1 hp2, exceptBind_ok_left,
      hpk, exceptBind_ok_left, hbs, exceptBind_ok_left]
    exact ⟨_, rfl⟩

/-- C10, amended: encoding the instrument section succeeds for every
document with at most 127 instruments whose fields are themselves
writable (pitch in the signed byte range, name and file lengths within
the signed 32-bit range, and name and file free of lone surrogate code
points, which `str.encode()` rejects), and fails with a packing error for
every document with 128 or more instruments, because the count is packed
as a single signed 8-bit value. -/
theorem write_instruments_count (f : File) :
    (f.instruments.length ≤ 127 →
      (∀ i ∈ f.instruments, -128 ≤ i.pitch ∧ i.pitch ≤ 127 ∧
        i.name.length ≤ 2147483647 ∧ i.file.length ≤ 2147483647 ∧
        (∀ c ∈ i.name, utf8Encodable c = true) ∧
        (∀ c ∈ i.file, utf8Encodable c = true)) →
      ∃ bs, write_instruments f = .ok bs) ∧
    (128 ≤ f.instruments.length →
      write_instruments f = .error .packError) := by
  constructor
  · intro hc hf
    obtain ⟨bs, hbs⟩ := writeInstrumentsList_ok f.instruments hf
    rw [write_instruments,
      packByte_ok (f.instruments.length : Int) (by omega) (by omega),
      exceptBind_ok_left, hbs, exceptBind_ok_left]
    exact ⟨_, rfl⟩
  · intro hc
    have hpk : packByte (f.instruments.length : Int) =
        .error .packError := by
      unfold packByte
      rw [if_neg]
      intro ⟨h1, h2⟩
      omega
    rw [write_instruments, hpk, exceptBind_error_left]

/-- C10 counterexample: having at most 127 instruments does not alone make
the instrument section encodable: a single instrument with pitch 1000
fails the byte pack, and a single instrument with in-range pitch whose
name is the lone surrogate U+D800 fails `str.encode()`. -/
theorem write_instruments_fields_fail :
    write_instruments ⟨defaultHeader, [], [],
      [⟨0, [], [], 1000, false⟩]⟩ = .error .packError ∧
    ([(⟨0, [], [], 1000, false⟩ : Instrument)]).length ≤ 127 ∧
    write_instruments ⟨defaultHeader, [], [],
      [⟨0, [55296], [], 0, false⟩]⟩ = .error .encodeError ∧
    ([(⟨0, [55296], [], 0, false⟩ : Instrument)]).length ≤ 127 ∧
    -128 ≤ ((⟨0, [55296], [], 0, false⟩ : Instrument)).pitch ∧
    ((⟨0, [55296], [], 0, false⟩ : Instrument)).pitch ≤ 127 ∧
    ((⟨0, [55296], [], 0, false⟩ :
      Instrument)).name.length ≤ 2147483647 := by
  decide

/-- Closed witness for `write_instruments_count` on a document with one
writable instrument. -/
theorem write_instruments_count_witness :
    ∃ bs, write_instruments ⟨defaultHeader, [], [],
      [⟨0, [104], [], 5, true⟩]⟩ = .ok bs :=
  (write_instruments_count ⟨defaultHeader, [], [],
    [⟨0, [104], [], 5, true⟩]⟩).1 (by decide) (by decide)

/-! ## Claim C3, amended: what save actually recomputes and writes -/

theorem write_header_decomp {f : File} {hb : Bytes}
    (h : write_header f = .ok hb) :
    ∃ t, hb = shortBytes 0 ++ (byteBytes f.header.version ++
      (byteBytes f.header.default_instruments ++
      (shortBytes f.header.song_length ++
      (shortBytes f.header.song_layers ++ t)))) := by
  unfold write_header at h
  obtain ⟨b0, h0, h⟩ := exceptBind_ok h
  obtain ⟨b1, h1, h⟩ := exceptBind_ok h
  obtain ⟨b2, h2, h⟩ := exceptBind_ok h
  obtain ⟨b3, h3, h⟩ := exceptBind_ok h
  obtain ⟨b4, h4, h⟩ := exceptBind_ok h
  obtain ⟨b5, h5, h⟩ := exceptBind_ok h
  obtain ⟨b6, h6, h⟩ := exceptBind_ok h
  obtain ⟨b7, h7, h⟩ := exceptBind_ok h
  obtain ⟨b8, h8, h⟩ := exceptBind_ok h
  obtain ⟨b9, h9, h⟩ := exceptBind_ok h
  obtain ⟨b10, h10, h⟩ := exceptBind_ok h
  obtain ⟨b11, h11, h⟩ := exceptBind_ok h
  obtain ⟨b12, h12, h⟩ := exceptBind_ok h
  obtain ⟨b13, h13, h⟩ := exceptBind_ok h
  obtain ⟨b14, h14, h⟩ := exceptBind_ok h
  obtain ⟨b15, h15, h⟩ := exceptBind_ok h
  obtain ⟨b16, h16, h⟩ := exceptBind_ok h
  obtain ⟨b17, h17, h⟩ := exceptBind_ok h
  obtain ⟨b18, h18, h⟩ := exceptBind_ok h
  injection h with hbs
  obtain ⟨rfl, -, -⟩ := packShort_ok_elim h0
  obtain ⟨rfl, -, -⟩ := packByte_ok_elim h1
  obtain ⟨rfl, -, -⟩ := packByte_ok_elim h2
  obtain ⟨rfl, -, -⟩ := packShort_ok_elim h3
  obtain ⟨rfl, -, -⟩ := packShort_ok_elim h4
  exact ⟨b5 ++ b6 ++ b7 ++ b8 ++ b9 ++ b10 ++ b11 ++ b12 ++ b13 ++ b14 ++
    b15 ++ b16 ++ b17 ++ b18, by rw [← hbs]; simp [List.append_assoc]⟩

/-- C3, amended: before encoding, `save` recomputes `song_length` as the
tick of the last note of the collection when notes exist and leaves it
unchanged when there are none (not 0), recomputes `song_layers` as the
layer count, and the encoded stream carries the recomputed values: bytes
4-5 hold the recomputed `song_length` and bytes 6-7 the layer count. -/
theorem save_writes_recomputed (f : File) (bs : Bytes)
    (h : save f = .ok bs) :
    (update_header f).header.song_length =
      (match f.notes.getLast? with
       | some n => n.tick
       | none => f.header.song_length) ∧
    (update_header f).header.song_layers = (f.layers.length : Int) ∧
    (bs.drop 4).take 2 = shortBytes (update_header f).header.song_length ∧
    (bs.drop 6).take 2 = shortBytes ((f.layers.length : Int)) := by
  refine ⟨rfl, rfl, ?_⟩
  unfold save encode_file at h
  obtain ⟨hb, hhb, h⟩ := exceptBind_ok h
  obtain ⟨nb, hnb, h⟩ := exceptBind_ok h
  obtain ⟨lb, hlb, h⟩ := exceptBind_ok h
  obtain ⟨ib, hib, h⟩ := exceptBind_ok h
  injection h with hbs
  obtain ⟨t, ht⟩ := write_header_decomp hhb
  subst ht
  rw [← hbs]
  exact ⟨rfl, rfl⟩

/-- Closed witness for `save_writes_recomputed`: a document with no notes
and a stale `song_length` of 7 saves bytes 4-5 as `07 00` — the stale
value is kept, and it is what the stream carries. -/
theorem save_writes_recomputed_witness :
    save ⟨{ defaultHeader with song_length := 7 }, [], [], []⟩ =
      .ok [0, 0, 3, 16, 7, 0, 0, 0, 0, 0, 0, 0, 0, 0, 0, 0, 0, 0, 0, 0,
        0, 0, 0, 0, 232, 3, 0, 10, 4, 0, 0, 0, 0, 0, 0, 0, 0, 0, 0, 0,
        0, 0, 0, 0, 0, 0, 0, 0, 0, 0, 0, 0, 0, 0, 0, 0] ∧
    ((update_header ⟨{ defaultHeader with song_length := 7 }, [], [],
        []⟩).header.song_length =
      (match ([] : List Note).getLast? with
       | some n => n.tick
       | none => ({ defaultHeader with song_length := 7} : Header).song_length) ∧
    (update_header ⟨{ defaultHeader with song_length := 7 }, [], [],
        []⟩).header.song_layers = (([] : List Layer).length : Int) ∧
    (([0, 0, 3, 16, 7, 0, 0, 0, 0, 0, 0, 0, 0, 0, 0, 0, 0, 0, 0, 0,
        0, 0, 0, 0, 232, 3, 0, 10, 4, 0, 0, 0, 0, 0, 0, 0, 0, 0, 0, 0,
        0, 0, 0, 0, 0, 0, 0, 0, 0, 0, 0, 0, 0, 0, 0, 0] : Bytes).drop
        4).take 2 =
      shortBytes (update_header ⟨{ defaultHeader with song_length := 7 },
        [], [], []⟩).header.song_length ∧
    (([0, 0, 3, 16, 7, 0, 0, 0, 0, 0, 0, 0, 0, 0, 0, 0, 0, 0, 0, 0,
        0, 0, 0, 0, 232, 3, 0, 10, 4, 0, 0, 0, 0, 0, 0, 0, 0, 0, 0, 0,
        0, 0, 0, 0, 0, 0, 0, 0, 0, 0, 0, 0, 0, 0, 0, 0] : Bytes).drop
        6).take 2 =
      shortBytes ((([] : List Layer).length : Int))) :=
  ⟨rfl,
   save_writes_recomputed ⟨{ defaultHeader with song_length := 7 }, [], [],
     []⟩ _ rfl⟩

/-! ## Claim C1: the encode/decode round trip -/

/-- Dividing the packed tempo by 100 recovers the tempo exactly when the
tempo is a multiple of 1/100 (its denominator divides 100). -/
theorem tempo_roundtrip (q : ℚ) (hd0 : (100 : Int) % (q.den : Int) = 0) :
    ((pyIntTempo q : Int) : ℚ) / 100 = q := by
  obtain ⟨k, hk⟩ := Int.dvd_of_emod_eq_zero hd0
  have hden0 : (q.den : Int) ≠ 0 := by
    have := q.den_pos
    omega
  have h1 : pyIntTempo q = q.num * k := by
    unfold pyIntTempo
    rw [show q.num * 100 = q.num * k * (q.den : Int) from by rw [hk]; ring]
    exact Int.mul_tdiv_cancel _ hden0
  have hk0 : (k : ℚ) ≠ 0 := by
    intro h0
    rw [show k = 0 from by exact_mod_cast h0] at hk
    simp at hk
  have hden0q : ((q.den : Int) : ℚ) ≠ 0 := by exact_mod_cast hden0
  rw [h1]
  rw [show ((100 : ℚ)) = (((q.den : Int) : ℚ) * (k : ℚ)) from by
    exact_mod_cast congrArg (fun z : Int => (z : ℚ)) hk]
  push_cast
  rw [mul_div_mul_right _ _ hk0]
  exact_mod_cast q.num_div_den

theorem packByte_bool (b : Bool) :
    packByte (if b then 1 else 0) = .ok (byteBytes (if b then 1 else 0)) := by
  cases b <;> simp [packByte]

theorem decode_if_bool (b : Bool) : ((if b then (1 : Int) else 0) == 1) = b := by
  cases b <;> rfl

theorem write_header_eq (f : File) (hWF : WFHeader f.header) :
    write_header f = .ok (headerBytes f.header) := by
  obtain ⟨hv, hdi, hsl, hly, hsn, hsa, hoa, hde, htd, htr, had, hts, hms,
    hlc, hrc, hba, hbr, hso⟩ := hWF
  rw [write_header, packShort_ok 0 (by norm_num) (by norm_num),
    exceptBind_ok_left, packByte_ok _ hv.1 hv.2, exceptBind_ok_left,
    packByte_ok _ hdi.1 hdi.2, exceptBind_ok_left,
    packShort_ok _ hsl.1 hsl.2, exceptBind_ok_left,
    packShort_ok _ hly.1 hly.2, exceptBind_ok_left,
    encode_string_ok _ hsn.2 (utf8Encodable_of_ascii hsn.1),
    exceptBind_ok_left,
    encode_string_ok _ hsa.2 (utf8Encodable_of_ascii hsa.1),
    exceptBind_ok_left,
    encode_string_ok _ hoa.2 (utf8Encodable_of_ascii hoa.1),
    exceptBind_ok_left,
    encode_string_ok _ hde.2 (utf8Encodable_of_ascii hde.1),
    exceptBind_ok_left,
    packShort_ok _ htr.1 htr.2, exceptBind_ok_left,
    packByte_bool _, exceptBind_ok_left,
    packByte_ok _ had.1 had.2, exceptBind_ok_left,
    packByte_ok _ hts.1 hts.2, exceptBind_ok_left,
    packInt_ok _ hms.1 hms.2, exceptBind_ok_left,
    packInt_ok _ hlc.1 hlc.2, exceptBind_ok_left,
    packInt_ok _ hrc.1 hrc.2, exceptBind_ok_left,
    packInt_ok _ hba.1 hba.2, exceptBind_ok_left,
    packInt_ok _ hbr.1 hbr.2, exceptBind_ok_left,
    encode_string_ok _ hso.2 (utf8Encodable_of_ascii hso.1),
    exceptBind_ok_left]
  rfl

theorem pbind_eval {α β : Type} {p : P α} {f : α → P β} {s : Bytes} {a : α}
    {rest : Bytes} (hp : p s = .ok (a, rest)) : pbind p f s = f a rest := by
  unfold pbind
  rw [hp]

theorem pbind_readByte {β : Type} (f : Int → P β) (v : Int) (r : Bytes)
    (h1 : -128 ≤ v) (h2 : v ≤ 127) :
    pbind readByte f (byteBytes v ++ r) = f v r :=
  pbind_eval (readByte_byteBytes v r h1 h2)

theorem pbind_readShort {β : Type} (f : Int → P β) (v : Int) (r : Bytes)
    (h1 : -32768 ≤ v) (h2 : v ≤ 32767) :
    pbind readShort f (shortBytes v ++ r) = f v r :=
  pbind_eval (readShort_shortBytes v r h1 h2)

theorem pbind_readInt {β : Type} (f : Int → P β) (v : Int) (r : Bytes)
    (h1 : -2147483648 ≤ v) (h2 : v ≤ 2147483647) :
    pbind readInt f (intBytes v ++ r) = f v r :=
  pbind_eval (readInt_intBytes v r h1 h2)

theorem pbind_read_string {β : Type} (f : PyStr → P β) (s : PyStr)
    (r : Bytes) (hA : ∀ c ∈ s, c < 128) (hl : s.length ≤ 2147483647) :
    pbind read_string f (intBytes (s.length : Int) ++ (utf8Encode s ++ r)) =
      f s r := by
  apply pbind_eval
  have h := read_string_ascii s r hA hl
  rwa [List.append_assoc] at h

theorem parse_headerBytes (h : Header) (r : Bytes) (hWF : WFHeader h) :
    parse_header (headerBytes h ++ r) = .ok (h, r) := by
  obtain ⟨version, di, sl, ly, sn, sa, oa, de, tempo, asv, asd, ts, ms, lc,
    rc, ba, br, so⟩ := h
  obtain ⟨hv, hdi, hsl, hly, hsn, hsa, hoa, hde, htd, htr, had, hts, hms,
    hlc, hrc, hba, hbr, hso⟩ := hWF
  simp only [headerBytes, strBytes, List.append_assoc] at *
  rw [parse_header, pbind_readShort _ 0 _ (by norm_num) (by norm_num),
    if_pos rfl, parseHeaderTail,
    pbind_readByte _ version _ hv.1 hv.2,
    pbind_readByte _ di _ hdi.1 hdi.2,
    pbind_readShort _ sl _ hsl.1 hsl.2,
    pbind_readShort _ ly _ hly.1 hly.2,
    pbind_read_string _ sn _ hsn.1 hsn.2,
    pbind_read_string _ sa _ hsa.1 hsa.2,
    pbind_read_string _ oa _ hoa.1 hoa.2,
    pbind_read_string _ de _ hde.1 hde.2,
    pbind_readShort _ _ _ htr.1 htr.2,
    pbind_readByte _ _ _ (by cases asv <;> norm_num)
      (by cases asv <;> norm_num),
    pbind_readByte _ asd _ had.1 had.2,
    pbind_readByte _ ts _ hts.1 hts.2,
    pbind_readInt _ ms _ hms.1 hms.2,
    pbind_readInt _ lc _ hlc.1 hlc.2,
    pbind_readInt _ rc _ hrc.1 hrc.2,
    pbind_readInt _ ba _ hba.1 hba.2,
    pbind_readInt _ br _ hbr.1 hbr.2,
    pbind_read_string _ so _ hso.1 hso.2,
    ppure]
  rw [tempo_roundtrip tempo htd, decode_if_bool asv]

/-! ## Chord grouping of a sorted note collection -/

theorem insertByKey_of_le {α : Type} (key : α → Int) (x : α) (l : List α)
    (h : ∀ y ∈ l.head?, key x ≤ key y) : insertByKey key x l = x :: l := by
  cases l with
  | nil => rfl
  | cons y ys =>
    have hxy : key x ≤ key y := h y rfl
    rw [insertByKey, if_neg (by omega)]

/-- A stable sort of an already key-sorted list is the identity. -/
theorem sortByKey_eq_self {α : Type} (key : α → Int) (l : List α)
    (h : List.Chain' (fun a b => key a ≤ key b) l) : sortByKey key l = l := by
  induction l with
  | nil => rfl
  | cons x xs ih =>
    rw [sortByKey, ih h.tail, insertByKey_of_le]
    intro y hy
    cases xs with
    | nil => cases hy
    | cons z zs =>
      cases hy
      exact (List.chain'_cons.mp h).1

theorem chain'_layers_of_lex (chord : List Note) (t : Int)
    (hct : ∀ n ∈ chord, n.tick = t) (hs : List.Chain' lexLt chord) :
    List.Chain' (· < ·) (chord.map Note.layer) := by
  induction chord with
  | nil => simp
  | cons n ns ih =>
    cases ns with
    | nil => simp
    | cons m ms =>
      obtain ⟨hrel, htail⟩ := List.chain'_cons.mp hs
      have hlt : n.layer < m.layer := by
        rcases hrel with h1 | ⟨h2, h3⟩
        · rw [hct n (by simp), hct m (by simp)] at h1
          omega
        · exact h3
      exact List.chain'_cons.mpr ⟨hlt,
        ih (fun x hx => hct x (by simp [hx])) htail⟩

theorem chain_layers (chord : List Note) (t : Int)
    (hct : ∀ n ∈ chord, n.tick = t) (hs : List.Chain' lexLt chord)
    (hpos : ∀ n ∈ chord, 0 ≤ n.layer) :
    List.Chain (· < ·) (-1) (chord.map Note.layer) := by
  cases chord with
  | nil => exact List.Chain.nil
  | cons n ns =>
    refine List.Chain.cons ?_ ?_
    · have := hpos n (by simp)
      omega
    · exact chain'_layers_of_lex (n :: ns) t hct hs

theorem chordLoop_spec (l : List Note) : ∀ (t : Int) (chord : List Note),
    chord ≠ [] →
    (∀ n ∈ chord, n.tick = t) →
    List.Chain' lexLt (chord ++ l) →
    (∀ n ∈ chord ++ l, 0 ≤ n.layer) →
    chordsFlatten (chordLoop l t chord) = chord ++ l ∧
    ∀ p, p < t → GoodChords p (chordLoop l t chord) := by
  induction l with
  | nil =>
    intro t chord hne hct hs hpos
    constructor
    · show chord ++ [] = chord ++ []
      rfl
    · intro p hp
      refine ⟨hp, hne, hct, ?_, trivial⟩
      exact chain_layers chord t hct (by simpa using hs) (by simpa using hpos)
  | cons n l ih =>
    intro t chord hne hct hs hpos
    by_cases hnt : n.tick = t
    · rw [chordLoop, if_pos hnt]
      have hs2 : List.Chain' lexLt ((chord ++ [n]) ++ l) := by
        rwa [List.append_assoc, List.singleton_append]
      have hpos2 : ∀ x ∈ (chord ++ [n]) ++ l, 0 ≤ x.layer := by
        intro x hx
        apply hpos
        rwa [List.append_assoc, List.singleton_append] at hx
      obtain ⟨hflat, hgood⟩ := ih t (chord ++ [n]) (by simp) (by
        intro x hx
        rcases List.mem_append.mp hx with hx1 | hx2
        · exact hct x hx1
        · rw [List.mem_singleton.mp hx2]; exact hnt) hs2 hpos2
      refine ⟨?_, hgood⟩
      rw [hflat, List.append_assoc, List.singleton_append]
    · have hsplit := List.chain'_append.mp hs
      have htlt : t < n.tick := by
        have hlast : ∃ w, chord.getLast? = some w := by
          cases hc : chord.getLast? with
          | none => rw [List.getLast?_eq_none_iff] at hc; exact absurd hc hne
          | some w => exact ⟨w, rfl⟩
        obtain ⟨w, hw⟩ := hlast
        have hwo : w ∈ chord.getLast? := by
          rw [Option.mem_def]
          exact hw
        obtain ⟨hall, hweq⟩ := List.mem_getLast?_eq_getLast hwo
        have hwmem : w ∈ chord := by
          rw [hweq]
          exact List.getLast_mem hall
        have hrel := hsplit.2.2 w hwo n rfl
        have hwt : w.tick = t := hct w hwmem
        unfold lexLt at hrel
        rcases hrel with h1 | ⟨h2, h3⟩
        · omega
        · exact absurd (by omega : n.tick = t) hnt
      have hsort : sortByKey (fun m => m.layer) chord = chord := by
        apply sortByKey_eq_self
        have hcm := chain'_layers_of_lex chord t hct hsplit.1
        rw [List.chain'_map] at hcm
        exact List.Chain'.imp (fun a b hab => le_of_lt hab) hcm
      rw [chordLoop, if_neg hnt, hsort]
      have hchain : List.Chain' lexLt ([n] ++ l) := by
        simpa using hsplit.2.1
      obtain ⟨hflat, hgood⟩ := ih n.tick [n] (by simp) (by simp)
        (by simpa using hchain)
        (by
          intro x hx
          apply hpos
          rcases List.mem_append.mp (by simpa using hx : x ∈ [n] ++ l) with
            h1 | h2
          · simp [List.mem_singleton.mp h1]
          · simp [h2])
      constructor
      · rw [show chordsFlatten ((t, chord) :: chordLoop l n.tick [n]) =
          chord ++ chordsFlatten (chordLoop l n.tick [n]) from by
            simp [chordsFlatten]]
        rw [hflat]
        simp
      · intro p hp
        exact ⟨hp, hne, hct,
          chain_layers chord t hct hsplit.1
            (fun x hx => hpos x (List.mem_append.mpr (Or.inl hx))),
          hgood t htlt⟩

theorem fileChords_sorted (hdr : Header) (notes : List Note)
    (ls : List Layer) (il : List Instrument)
    (hs : List.Chain' lexLt notes)
    (hpos : ∀ n ∈ notes, 0 ≤ n.tick ∧ 0 ≤ n.layer) :
    chordsFlatten (fileChords ⟨hdr, notes, ls, il⟩) = notes ∧
    GoodChords (-1) (fileChords ⟨hdr, notes, ls, il⟩) := by
  cases notes with
  | nil => exact ⟨rfl, trivial⟩
  | cons n0 rest =>
    have hsort : sortByKey (fun n => n.tick) (n0 :: rest) = n0 :: rest := by
      apply sortByKey_eq_self
      exact hs.imp fun a b hab => by
        unfold lexLt at hab
        rcases hab with h1 | ⟨h2, h3⟩ <;> omega
    have hstep : fileChords ⟨hdr, n0 :: rest, ls, il⟩ =
        chordLoop rest n0.tick [n0] := by
      show chordLoop (sortByKey (fun n => n.tick) (n0 :: rest)) n0.tick [] = _
      rw [hsort, chordLoop, if_pos rfl]
      rfl
    rw [hstep]
    obtain ⟨hflat, hgood⟩ := chordLoop_spec rest n0.tick [n0] (by simp)
      (by simp) (by simpa using hs)
      (by
        intro x hx
        rcases List.mem_append.mp hx with h1 | h2
        · rw [List.mem_singleton.mp h1]
          exact (hpos n0 (by simp)).2
        · exact (hpos x (by simp [h2])).2)
    refine ⟨by simpa using hflat, hgood (-1) ?_⟩
    have := (hpos n0 (by simp)).1
    omega

theorem writeChord_parse (chord : List Note) : ∀ (prev t : Int),
    -1 ≤ prev →
    (∀ n ∈ chord, n.tick = t ∧ n.layer ≤ 32766 ∧ -128 ≤ n.instrument ∧
      n.instrument ≤ 127 ∧ -128 ≤ n.key ∧ n.key ≤ 127) →
    List.Chain (· < ·) prev (chord.map Note.layer) →
    ∃ cb, writeChord chord prev = .ok cb ∧
      ∀ r, parseNotesInner t prev (cb ++ r) = .ok (chord, r) := by
  induction chord with
  | nil =>
    intro prev t hprev hfields hchain
    refine ⟨shortBytes 0, packShort_ok 0 (by norm_num) (by norm_num), ?_⟩
    intro r
    rw [show shortBytes 0 ++ r = 0 :: 0 :: r from rfl]
    exact parseNotesInner_term t prev 0 0 r (by decide)
  | cons n ns ih =>
    intro prev t hprev hfields hchain
    obtain ⟨hnt, hnl, hi1, hi2, hk1, hk2⟩ := hfields n (by simp)
    have hchain2 := List.chain_cons.mp (by simpa using hchain :
      List.Chain (· < ·) prev (n.layer :: ns.map Note.layer))
    have hlt : prev < n.layer := hchain2.1
    obtain ⟨cb, hcb, hparse⟩ := ih n.layer t (by omega)
      (fun x hx => hfields x (by simp [hx])) hchain2.2
    refine ⟨shortBytes (n.layer - prev) ++ byteBytes n.instrument ++
      byteBytes n.key ++ cb, ?_, ?_⟩
    · rw [writeChord, packShort_ok _ (by omega) (by omega),
        exceptBind_ok_left, packByte_ok _ hi1 hi2, exceptBind_ok_left,
        packByte_ok _ hk1 hk2, exceptBind_ok_left, hcb, exceptBind_ok_left]
      rfl
    · intro r
      have hshape : (shortBytes (n.layer - prev) ++ byteBytes n.instrument ++
          byteBytes n.key ++ cb) ++ r =
          ((n.layer - prev) % 65536).toNat % 256 ::
          ((n.layer - prev) % 65536).toNat / 256 ::
          (n.instrument % 256).toNat :: (n.key % 256).toNat :: (cb ++ r) := by
        simp [shortBytes, byteBytes]
      have hdec : decodeShortVal (((n.layer - prev) % 65536).toNat % 256)
          (((n.layer - prev) % 65536).toNat / 256) = n.layer - prev :=
        decodeShortVal_shortBytes _ (by omega) (by omega)
      rw [hshape, parseNotesInner_step t prev _ _ _ _ _
        (by rw [hdec]; omega), hdec,
        show prev + (n.layer - prev) = n.layer from by ring, hparse r,
        decodeByteVal_byteBytes n.instrument hi1 hi2,
        decodeByteVal_byteBytes n.key hk1 hk2]
      have hn : (⟨t, n.layer, n.instrument, n.key⟩ : Note) = n := by
        cases n
        simp only at hnt ⊢
        rw [hnt]
      rw [hn]

theorem writeChords_parse (cs : List (Int × List Note)) : ∀ (prev : Int),
    -1 ≤ prev →
    GoodChords prev cs →
    (∀ n ∈ chordsFlatten cs, n.tick ≤ 32766 ∧ n.layer ≤ 32766 ∧
      -128 ≤ n.instrument ∧ n.instrument ≤ 127 ∧
      -128 ≤ n.key ∧ n.key ≤ 127) →
    ∃ bs, writeChords cs prev = .ok bs ∧
      ∀ (r : Bytes) (fuel : Nat), bs.length < 2 * fuel →
        parseNotesGo fuel prev (bs ++ r) = .ok (chordsFlatten cs, r) := by
  induction cs with
  | nil =>
    intro prev hprev hgood hranges
    refine ⟨shortBytes 0, packShort_ok 0 (by norm_num) (by norm_num), ?_⟩
    intro r fuel hfuel
    match fuel with
    | 0 => simp [shortBytes] at hfuel
    | fu + 1 =>
      rw [show shortBytes 0 ++ r = 0 :: 0 :: r from rfl]
      exact parseNotesGo_term fu prev 0 0 r (by decide)
  | cons tc rest ih =>
    intro prev hprev hgood hranges
    obtain ⟨t, c⟩ := tc
    obtain ⟨hlt, hne, hct, hchain, hgood2⟩ := hgood
    obtain ⟨n0, hn0⟩ := List.exists_mem_of_ne_nil c hne
    have hn0flat : n0 ∈ chordsFlatten ((t, c) :: rest) := by
      simp [chordsFlatten]
      exact Or.inl hn0
    have ht2 : t ≤ 32766 := by
      have := (hranges n0 hn0flat).1
      rw [hct n0 hn0] at this
      exact this
    have hcflat : ∀ n ∈ c, n ∈ chordsFlatten ((t, c) :: rest) := by
      intro x hx
      simp [chordsFlatten]
      exact Or.inl hx
    obtain ⟨cb, hcb, hcparse⟩ := writeChord_parse c (-1) t (le_refl _)
      (fun x hx => ⟨hct x hx, (hranges x (hcflat x hx)).2.1,
        (hranges x (hcflat x hx)).2.2.1, (hranges x (hcflat x hx)).2.2.2.1,
        (hranges x (hcflat x hx)).2.2.2.2.1,
        (hranges x (hcflat x hx)).2.2.2.2.2⟩) hchain
    obtain ⟨bs2, hbs2, hparse2⟩ := ih t (by omega) hgood2
      (by
        intro x hx
        apply hranges
        simp [chordsFlatten] at hx ⊢
        exact Or.inr hx)
    refine ⟨shortBytes (t - prev) ++ cb ++ bs2, ?_, ?_⟩
    · rw [writeChords, packShort_ok _ (by omega) (by omega),
        exceptBind_ok_left, hcb, exceptBind_ok_left, hbs2,
        exceptBind_ok_left]
      rfl
    · intro r fuel hfuel
      match fuel with
      | 0 => simp [shortBytes] at hfuel
      | fu + 1 =>
        have hshape : (shortBytes (t - prev) ++ cb ++ bs2) ++ r =
            ((t - prev) % 65536).toNat % 256 ::
            ((t - prev) % 65536).toNat / 256 :: (cb ++ (bs2 ++ r)) := by
          simp [shortBytes]
        have hdec : decodeShortVal (((t - prev) % 65536).toNat % 256)
            (((t - prev) % 65536).toNat / 256) = t - prev :=
          decodeShortVal_shortBytes _ (by omega) (by omega)
        rw [hshape, parseNotesGo_step fu prev _ _ _ (by rw [hdec]; omega),
          hdec, show prev + (t - prev) = t from by ring, hcparse (bs2 ++ r)]
        have hlen : bs2.length < 2 * fu := by
          have : (shortBytes (t - prev) ++ cb ++ bs2).length =
              2 + cb.length + bs2.length := by
            simp [shortBytes]
            omega
          omega
        show (match parseNotesGo fu t (bs2 ++ r) with
          | .ok (ns2, r2) => (Except.ok (c ++ ns2, r2) :
              Except Err (List Note × Bytes))
          | .error e => .error e) = _
        rw [hparse2 r fu hlen]
        rw [show chordsFlatten ((t, c) :: rest) =
          c ++ chordsFlatten rest from by simp [chordsFlatten]]

theorem write_parse_notes (f : File)
    (hs : List.Chain' lexLt f.notes)
    (hranges : ∀ n ∈ f.notes, 0 ≤ n.tick ∧ n.tick ≤ 32766 ∧
      0 ≤ n.layer ∧ n.layer ≤ 32766 ∧
      -128 ≤ n.instrument ∧ n.instrument ≤ 127 ∧
      -128 ≤ n.key ∧ n.key ≤ 127) :
    ∃ nb, write_notes f = .ok nb ∧
      ∀ (r : Bytes) (fuel : Nat), nb.length < 2 * fuel →
        parseNotesGo fuel (-1) (nb ++ r) = .ok (f.notes, r) := by
  obtain ⟨hdr, notes, ls, il⟩ := f
  obtain ⟨hflat, hgood⟩ := fileChords_sorted hdr notes ls il hs
    (fun n hn => ⟨(hranges n hn).1, (hranges n hn).2.2.1⟩)
  obtain ⟨bs, hbs, hparse⟩ := writeChords_parse
    (fileChords ⟨hdr, notes, ls, il⟩) (-1) (le_refl _) hgood
    (by
      rw [hflat]
      intro n hn
      exact ⟨(hranges n hn).2.1, (hranges n hn).2.2.2.1,
        (hranges n hn).2.2.2.2.1, (hranges n hn).2.2.2.2.2.1,
        (hranges n hn).2.2.2.2.2.2.1, (hranges n hn).2.2.2.2.2.2.2⟩)
  rw [hflat] at hparse
  exact ⟨bs, hbs, hparse⟩

/-! ## Layers and instruments sections -/

theorem write_parse_layers (ls : List Layer) : ∀ (i : Nat),
    (∀ l ∈ ls, WFLayer l) →
    ls.map Layer.id = (List.range' i ls.length).map Int.ofNat →
    ∃ lb, writeLayersList ls = .ok lb ∧
      ∀ r, parseLayersFrom i ls.length (lb ++ r) = .ok (ls, r) := by
  induction ls with
  | nil => exact fun i _ _ => ⟨[], rfl, fun r => rfl⟩
  | cons l rest ih =>
    intro i hWF hid
    obtain ⟨⟨hA, hL⟩, hv1, hv2, hp1, hp2⟩ := hWF l (by simp)
    simp only [List.length_cons, List.range'_succ, List.map_cons] at hid
    injection hid with hidl hidrest
    obtain ⟨lb2, hlb2, hparse2⟩ := ih (i + 1)
      (fun x hx => hWF x (by simp [hx])) hidrest
    refine ⟨strBytes l.name ++ byteBytes l.volume ++ byteBytes l.panning ++
      lb2, ?_, ?_⟩
    · rw [writeLayersList,
        encode_string_ok _ hL (utf8Encodable_of_ascii hA),
        exceptBind_ok_left,
        packByte_ok _ hv1 hv2, exceptBind_ok_left,
        packByte_ok _ hp1 hp2, exceptBind_ok_left, hlb2, exceptBind_ok_left]
      rfl
    · intro r
      rw [show (strBytes l.name ++ byteBytes l.volume ++
          byteBytes l.panning ++ lb2) ++ r =
          intBytes (l.name.length : Int) ++ (utf8Encode l.name ++
          (byteBytes l.volume ++ (byteBytes l.panning ++ (lb2 ++ r)))) from by
        simp [strBytes, List.append_assoc]]
      rw [List.length_cons, parseLayersFrom,
        pbind_read_string _ l.name _ hA hL,
        pbind_readByte _ l.volume _ hv1 hv2,
        pbind_readByte _ l.panning _ hp1 hp2,
        pbind_eval (hparse2 r)]
      have : (⟨(i : Int), l.name, l.volume, l.panning⟩ : Layer) = l := by
        cases l
        simp only at hidl ⊢
        rw [hidl]
        rfl
      rw [ppure, this]

theorem write_parse_instruments (il : List Instrument) : ∀ (i : Nat),
    (∀ x ∈ il, WFInstrument x) →
    il.map Instrument.id = (List.range' i il.length).map Int.ofNat →
    ∃ ib, writeInstrumentsList il = .ok ib ∧
      ∀ r, parseInstrumentsFrom i il.length (ib ++ r) = .ok (il, r) := by
  induction il with
  | nil => exact fun i _ _ => ⟨[], rfl, fun r => rfl⟩
  | cons x rest ih =>
    intro i hWF hid
    obtain ⟨⟨hnA, hnL⟩, ⟨hfA, hfL⟩, hp1, hp2⟩ := hWF x (by simp)
    simp only [List.length_cons, List.range'_succ, List.map_cons] at hid
    injection hid with hidl hidrest
    obtain ⟨ib2, hib2, hparse2⟩ := ih (i + 1)
      (fun y hy => hWF y (by simp [hy])) hidrest
    refine ⟨strBytes x.name ++ strBytes x.file ++ byteBytes x.pitch ++
      byteBytes (if x.press_key then 1 else 0) ++ ib2, ?_, ?_⟩
    · rw [writeInstrumentsList,
        encode_string_ok _ hnL (utf8Encodable_of_ascii hnA),
        exceptBind_ok_left,
        encode_string_ok _ hfL (utf8Encodable_of_ascii hfA),
        exceptBind_ok_left,
        packByte_ok _ hp1 hp2, exceptBind_ok_left,
        packByte_bool _, exceptBind_ok_left, hib2, exceptBind_ok_left]
      rfl
    · intro r
      rw [show (strBytes x.name ++ strBytes x.file ++ byteBytes x.pitch ++
          byteBytes (if x.press_key then 1 else 0) ++ ib2) ++ r =
          intBytes (x.name.length : Int) ++ (utf8Encode x.name ++
          (intBytes (x.file.length : Int) ++ (utf8Encode x.file ++
          (byteBytes x.pitch ++ (byteBytes (if x.press_key then 1 else 0) ++
          (ib2 ++ r)))))) from by
        simp [strBytes, List.append_assoc]]
      rw [List.length_cons, parseInstrumentsFrom,
        pbind_read_string _ x.name _ hnA hnL,
        pbind_read_string _ x.file _ hfA hfL,
        pbind_readByte _ x.pitch _ hp1 hp2,
        pbind_readByte _ (if x.press_key then 1 else 0) _
          (by cases x.press_key <;> norm_num)
          (by cases x.press_key <;> norm_num),
        pbind_eval (hparse2 r)]
      have : (⟨(i : Int), x.name, x.file, x.pitch,
          ((if x.press_key then (1 : Int) else 0) == 1)⟩ : Instrument) =
          x := by
        cases x
        simp only at hidl ⊢
        rw [hidl, decode_if_bool]
        rfl
      rw [ppure, this]

/-! ## The full document round trip -/

/-- C1, amended: for every document that is representable and consistent
(`WF`), encoding succeeds and decoding the encoded stream returns exactly
the original document with the stream fully consumed. -/
theorem encode_decode_roundtrip (f : File) (hWF : WF f) :
    ∃ bs, encode_file f = .ok bs ∧ read_file bs = .ok (f, []) := by
  obtain ⟨hH, ⟨hsort, hranges⟩, hLW, hLid, hIW, hIid, hIc, hly, hsl⟩ := hWF
  obtain ⟨nb, hnb, hnparse⟩ := write_parse_notes f hsort hranges
  obtain ⟨lb, hlb, hlparse⟩ := write_parse_layers f.layers 0 hLW hLid
  obtain ⟨ib2, hib2, hiparse⟩ := write_parse_instruments f.instruments 0
    hIW hIid
  have hhb := write_header_eq f hH
  have hwl : write_layers f = .ok lb := hlb
  have hwi : write_instruments f = .ok (byteBytes (f.instruments.length :
      Int) ++ ib2) := by
    rw [write_instruments, packByte_ok _ (by omega) (by omega),
      exceptBind_ok_left, hib2, exceptBind_ok_left]
    rfl
  refine ⟨headerBytes f.header ++ nb ++ lb ++
    (byteBytes (f.instruments.length : Int) ++ ib2), ?_, ?_⟩
  · rw [encode_file, hhb, exceptBind_ok_left, hnb, exceptBind_ok_left,
      hwl, exceptBind_ok_left, hwi, exceptBind_ok_left]
    rfl
  · rw [show headerBytes f.header ++ nb ++ lb ++
      (byteBytes (f.instruments.length : Int) ++ ib2) =
      headerBytes f.header ++ (nb ++ (lb ++
        (byteBytes (f.instruments.length : Int) ++ ib2))) from by
      simp [List.append_assoc]]
    rw [read_file, pbind_eval (parse_headerBytes f.header _ hH)]
    have hpn : parse_notes (nb ++ (lb ++
        (byteBytes (f.instruments.length : Int) ++ ib2))) =
        .ok (f.notes, lb ++ (byteBytes (f.instruments.length : Int) ++
          ib2)) := by
      show parseNotesGo ((nb ++ (lb ++ (byteBytes (f.instruments.length :
        Int) ++ ib2))).length + 1) (-1) _ = _
      apply hnparse
      simp only [List.length_append]
      omega
    rw [pbind_eval hpn]
    have hpl : parse_layers f.header.song_layers (lb ++
        (byteBytes (f.instruments.length : Int) ++ ib2)) =
        .ok (f.layers, byteBytes (f.instruments.length : Int) ++ ib2) := by
      rw [hly]
      show parseLayersFrom 0 ((f.layers.length : Int)).toNat _ = _
      rw [Int.toNat_natCast]
      exact hlparse _
    rw [pbind_eval hpl]
    have hpi : parse_instruments (byteBytes (f.instruments.length : Int) ++
        ib2) = .ok (f.instruments, []) := by
      rw [parse_instruments, pbind_readByte _ _ _ (by omega) (by omega),
        Int.toNat_natCast]
      have := hiparse []
      rwa [List.append_nil] at this
    rw [pbind_eval hpi, ppure]

/-- Closed witness for `encode_decode_roundtrip` on `rtDoc`. -/
theorem encode_decode_roundtrip_witness :
    ∃ bs, encode_file rtDoc = .ok bs ∧ read_file bs = .ok (rtDoc, []) :=
  encode_decode_roundtrip rtDoc
    ⟨by decide, ⟨List.chain'_singleton _, by decide⟩, by decide, by decide,
     by decide, by decide, by decide, by decide, by decide⟩

/-- C1 counterexample: a document whose header counters are consistent
with its notes and layers (song_length 2 is the last note's tick,
song_layers 0 the layer count) but whose note list is not tick-sorted
decodes, after encoding, to a different document: the notes come back in
sorted order, so `decode(encode(D))` differs from `D` in the notes, not
only in recomputed header fields. -/
theorem roundtrip_claim_counterexample :
    encode_file rtCounterDoc = .ok rtCounterBytes ∧
    read_file rtCounterBytes = .ok (rtCounterDecoded, []) ∧
    rtCounterDecoded.notes ≠ rtCounterDoc.notes ∧
    rtCounterDecoded ≠ rtCounterDoc ∧
    rtCounterDoc.header.song_layers = (rtCounterDoc.layers.length : Int) ∧
    rtCounterDoc.header.song_length =
      (match rtCounterDoc.notes.getLast? with
       | some n => n.tick
       | none => rtCounterDoc.header.song_length) :=
  ⟨rfl, rfl, by decide, fun h => absurd (congrArg File.notes h) (by decide),
   by decide, by decide⟩

/-! ## Claim C7: decoding strict prefixes of valid streams -/

theorem truncS_truncW {p : P α} (h : TruncS p) : TruncW p :=
  fun c r a hp n hn => Or.inl (h c r a hp n hn)

theorem pbind_error {p : P α} {f : α → P β} {s : Bytes} {e : Err}
    (hp : p s = .error e) : pbind p f s = .error e := by
  unfold pbind
  rw [hp]

theorem pbind_ok_elim {p : P α} {f : α → P β} {s : Bytes} {b : β}
    {r : Bytes} (h : pbind p f s = .ok (b, r)) :
    ∃ a m, p s = .ok (a, m) ∧ f a m = .ok (b, r) := by
  unfold pbind at h
  cases hp : p s with
  | error e => rw [hp] at h; cases h
  | ok v =>
    obtain ⟨a, m⟩ := v
    rw [hp] at h
    exact ⟨a, m, rfl, h⟩

/-- Splits the consumed bytes of a successful `pbind` into the part the
first parser consumed and the part the continuation consumed. -/
theorem pbind_split {p : P α} {f : α → P β} {C r : Bytes} {b : β}
    (hCp : Consumes p) (hCf : ∀ a, Consumes (f a))
    (h : pbind p f (C ++ r) = .ok (b, r)) :
    ∃ a c1 c2, C = c1 ++ c2 ∧ p (C ++ r) = .ok (a, c2 ++ r) ∧
      f a (c2 ++ r) = .ok (b, r) := by
  obtain ⟨a, m, hp, hf⟩ := pbind_ok_elim h
  obtain ⟨c2, rfl⟩ := hCf a _ _ _ hf
  obtain ⟨c1, hc1⟩ := hCp _ _ _ hp
  refine ⟨a, c1, c2, ?_, hp, hf⟩
  have h2 : C ++ r = (c1 ++ c2) ++ r := by rw [hc1, List.append_assoc]
  exact List.append_cancel_right h2

theorem consumes_pbind {p : P α} {f : α → P β} (hCp : Consumes p)
    (hCf : ∀ a, Consumes (f a)) : Consumes (pbind p f) := by
  intro s b r h
  obtain ⟨a, m, hp, hf⟩ := pbind_ok_elim h
  obtain ⟨c1, rfl⟩ := hCp _ _ _ hp
  obtain ⟨c2, rfl⟩ := hCf a _ _ _ hf
  exact ⟨c1 ++ c2, by rw [List.append_assoc]⟩

theorem localP_pbind {p : P α} {f : α → P β} (hCp : Consumes p)
    (hCf : ∀ a, Consumes (f a)) (hLp : LocalP p)
    (hLf : ∀ a, LocalP (f a)) : LocalP (pbind p f) := by
  intro c r r' b hr h
  obtain ⟨a, c1, c2, rfl, hp, hf⟩ := pbind_split hCp hCf h
  rw [List.append_assoc] at hp
  have hp' := hLp c1 (c2 ++ r) (c2 ++ r') a (by simp [hr]) hp
  have hf' := hLf a c2 r r' b hr hf
  rw [List.append_assoc]
  exact pbind_eval hp' ▸ hf'

theorem take_append_left {α : Type} (l1 l2 : List α) {n : Nat}
    (hn : n ≤ l1.length) : (l1 ++ l2).take n = l1.take n := by
  rw [List.take_append_eq_append_take, Nat.sub_eq_zero_of_le hn,
    List.take_zero, List.append_nil]

theorem take_append_mid {α : Type} (l1 l2 : List α) (k : Nat) :
    (l1 ++ l2).take (l1.length + k) = l1 ++ l2.take k := by
  rw [List.take_append_eq_append_take, List.take_of_length_le (by omega),
    Nat.add_sub_cancel_left]

theorem truncW_bind {p : P α} {f : α → P β} (hCp : Consumes p)
    (hCf : ∀ a, Consumes (f a)) (hLp : LocalP p) (hSp : TruncS p)
    (hWf : ∀ a, TruncW (f a)) : TruncW (pbind p f) := by
  intro C r b h n hn
  obtain ⟨a, c1, c2, rfl, hp, hf⟩ := pbind_split hCp hCf h
  rw [List.append_assoc] at hp
  by_cases h1 : n < c1.length
  · obtain ⟨e, he, hte⟩ := hSp c1 (c2 ++ r) a hp n h1
    rw [take_append_left c1 c2 (le_of_lt h1)]
    exact Or.inl ⟨e, pbind_error he, hte⟩
  · have hc2 : c2 ≠ [] := by
      intro h0
      rw [h0] at hn
      simp at hn h1
      omega
    have hn2 : n - c1.length < c2.length := by
      simp at hn
      omega
    rw [show n = c1.length + (n - c1.length) from by omega,
      take_append_mid c1 c2 (n - c1.length)]
    have hp' := hLp c1 (c2 ++ r) (c2.take (n - c1.length)) a
      (by simp [hc2]) hp
    rcases hWf a c2 r b hf (n - c1.length) hn2 with ⟨e, he, hte⟩ | ⟨b2, hb2⟩
    · exact Or.inl ⟨e, by rw [pbind_eval hp']; exact he, hte⟩
    · exact Or.inr ⟨b2, by rw [pbind_eval hp']; exact hb2⟩

theorem truncW_bindW {p : P α} {f : α → P β} (hCp : Consumes p)
    (hCf : ∀ a, Consumes (f a)) (hLp : LocalP p) (hWp : TruncW p)
    (hEf : ∀ a, EmptyW (f a)) (hWf : ∀ a, TruncW (f a)) :
    TruncW (pbind p f) := by
  intro C r b h n hn
  obtain ⟨a, c1, c2, rfl, hp, hf⟩ := pbind_split hCp hCf h
  rw [List.append_assoc] at hp
  by_cases h1 : n < c1.length
  · rw [take_append_left c1 c2 (le_of_lt h1)]
    rcases hWp c1 (c2 ++ r) a hp n h1 with ⟨e, he, hte⟩ | ⟨a2, ha2⟩
    · exact Or.inl ⟨e, pbind_error he, hte⟩
    · rcases hEf a2 with ⟨e, he, hte⟩ | ⟨b2, hb2⟩
      · exact Or.inl ⟨e, by rw [pbind_eval ha2]; exact he, hte⟩
      · exact Or.inr ⟨b2, by rw [pbind_eval ha2]; exact hb2⟩
  · have hc2 : c2 ≠ [] := by
      intro h0
      rw [h0] at hn
      simp at hn h1
      omega
    have hn2 : n - c1.length < c2.length := by
      simp at hn
      omega
    rw [show n = c1.length + (n - c1.length) from by omega,
      take_append_mid c1 c2 (n - c1.length)]
    have hp' := hLp c1 (c2 ++ r) (c2.take (n - c1.length)) a
      (by simp [hc2]) hp
    rcases hWf a c2 r b hf (n - c1.length) hn2 with ⟨e, he, hte⟩ | ⟨b2, hb2⟩
    · exact Or.inl ⟨e, by rw [pbind_eval hp']; exact he, hte⟩
    · exact Or.inr ⟨b2, by rw [pbind_eval hp']; exact hb2⟩

theorem truncS_bind {p : P α} {f : α → P β} (hCp : Consumes p)
    (hCf : ∀ a, Consumes (f a)) (hLp : LocalP p) (hSp : TruncS p)
    (hSf : ∀ a, TruncS (f a)) : TruncS (pbind p f) := by
  intro C r b h n hn
  obtain ⟨a, c1, c2, rfl, hp, hf⟩ := pbind_split hCp hCf h
  rw [List.append_assoc] at hp
  by_cases h1 : n < c1.length
  · obtain ⟨e, he, hte⟩ := hSp c1 (c2 ++ r) a hp n h1
    rw [take_append_left c1 c2 (le_of_lt h1)]
    exact ⟨e, pbind_error he, hte⟩
  · have hc2 : c2 ≠ [] := by
      intro h0
      rw [h0] at hn
      simp at hn h1
      omega
    have hn2 : n - c1.length < c2.length := by
      simp at hn
      omega
    rw [show n = c1.length + (n - c1.length) from by omega,
      take_append_mid c1 c2 (n - c1.length)]
    have hp' := hLp c1 (c2 ++ r) (c2.take (n - c1.length)) a
      (by simp [hc2]) hp
    obtain ⟨e, he, hte⟩ := hSf a c2 r b hf (n - c1.length) hn2
    exact ⟨e, by rw [pbind_eval hp']; exact he, hte⟩

theorem truncS_bindW {p : P α} {f : α → P β} (hCp : Consumes p)
    (hCf : ∀ a, Consumes (f a)) (hLp : LocalP p) (hWp : TruncW p)
    (hFf : ∀ a, ∃ e, f a [] = .error e ∧ TErr e)
    (hSf : ∀ a, TruncS (f a)) : TruncS (pbind p f) := by
  intro C r b h n hn
  obtain ⟨a, c1, c2, rfl, hp, hf⟩ := pbind_split hCp hCf h
  rw [List.append_assoc] at hp
  by_cases h1 : n < c1.length
  · rw [take_append_left c1 c2 (le_of_lt h1)]
    rcases hWp c1 (c2 ++ r) a hp n h1 with ⟨e, he, hte⟩ | ⟨a2, ha2⟩
    · exact ⟨e, pbind_error he, hte⟩
    · obtain ⟨e, he, hte⟩ := hFf a2
      exact ⟨e, by rw [pbind_eval ha2]; exact he, hte⟩
  · have hc2 : c2 ≠ [] := by
      intro h0
      rw [h0] at hn
      simp at hn h1
      omega
    have hn2 : n - c1.length < c2.length := by
      simp at hn
      omega
    rw [show n = c1.length + (n - c1.length) from by omega,
      take_append_mid c1 c2 (n - c1.length)]
    have hp' := hLp c1 (c2 ++ r) (c2.take (n - c1.length)) a
      (by simp [hc2]) hp
    obtain ⟨e, he, hte⟩ := hSf a c2 r b hf (n - c1.length) hn2
    exact ⟨e, by rw [pbind_eval hp']; exact he, hte⟩

theorem good_of_strong {p : P α} (h : Strong p) : Good p :=
  ⟨h.1, h.2.1, truncS_truncW h.2.2⟩

theorem failsEmpty_pbind {p : P α} {f : α → P β} (h : FailsEmpty p) :
    FailsEmpty (pbind p f) := by
  obtain ⟨e, he, hte⟩ := h
  exact ⟨e, pbind_error he, hte⟩

theorem strong_bind {p : P α} {f : α → P β} (hp : Strong p)
    (hf : ∀ a, Strong (f a)) : Strong (pbind p f) :=
  ⟨consumes_pbind hp.1 fun a => (hf a).1,
   localP_pbind hp.1 (fun a => (hf a).1) hp.2.1 fun a => (hf a).2.1,
   truncS_bind hp.1 (fun a => (hf a).1) hp.2.1 hp.2.2 fun a => (hf a).2.2⟩

theorem strong_bindW {p : P α} {f : α → P β} (hp : Good p)
    (hf : ∀ a, Strong (f a)) (he : ∀ a, FailsEmpty (f a)) :
    Strong (pbind p f) :=
  ⟨consumes_pbind hp.1 fun a => (hf a).1,
   localP_pbind hp.1 (fun a => (hf a).1) hp.2.1 fun a => (hf a).2.1,
   truncS_bindW hp.1 (fun a => (hf a).1) hp.2.1 hp.2.2 he
     fun a => (hf a).2.2⟩

theorem good_bindE {p : P α} {f : α → P β} (hp : GoodE p)
    (hf : ∀ a, GoodE (f a)) : GoodE (pbind p f) :=
  ⟨⟨consumes_pbind hp.1.1 fun a => (hf a).1.1,
    localP_pbind hp.1.1 (fun a => (hf a).1.1) hp.1.2.1
      fun a => (hf a).1.2.1,
    truncW_bindW hp.1.1 (fun a => (hf a).1.1) hp.1.2.1 hp.1.2.2
      (fun a => (hf a).2) fun a => (hf a).1.2.2⟩, by
    rcases hp.2 with ⟨e, he, hte⟩ | ⟨a, ha⟩
    · exact Or.inl ⟨e, pbind_error he, hte⟩
    · rcases (hf a).2 with ⟨e, he, hte⟩ | ⟨b, hb⟩
      · exact Or.inl ⟨e, by rw [pbind_eval ha]; exact he, hte⟩
      · exact Or.inr ⟨b, by rw [pbind_eval ha]; exact hb⟩⟩

theorem goodE_bind {p : P α} {f : α → P β} (hp : Strong p)
    (he : FailsEmpty p) (hf : ∀ a, Good (f a)) : GoodE (pbind p f) :=
  ⟨⟨consumes_pbind hp.1 fun a => (hf a).1,
    localP_pbind hp.1 (fun a => (hf a).1) hp.2.1 fun a => (hf a).2.1,
    truncW_bind hp.1 (fun a => (hf a).1) hp.2.1 hp.2.2
      fun a => (hf a).2.2⟩, by
    obtain ⟨e, he', hte⟩ := he
    exact Or.inl ⟨e, pbind_error he', hte⟩⟩

theorem ppure_consumed {a b : α} {c r : Bytes}
    (h : ppure a (c ++ r) = .ok (b, r)) : c = [] := by
  unfold ppure at h
  injection h with h1
  injection h1 with h2 h3
  have := congrArg List.length h3
  simp at this
  exact this

theorem strong_ppure (a : α) : Strong (ppure a) := by
  refine ⟨fun s b r h => ⟨[], ?_⟩, fun c r r' b hr h => ?_, ?_⟩
  · unfold ppure at h
    injection h with h1
    injection h1 with h2 h3
  · have hc := ppure_consumed h
    subst hc
    unfold ppure at h ⊢
    injection h with h1
    injection h1 with h2 h3
    rw [h2]
    rfl
  · intro c r b h n hn
    have hc := ppure_consumed h
    subst hc
    simp at hn

theorem goodE_ppure (a : α) : GoodE (ppure a) :=
  ⟨good_of_strong (strong_ppure a), Or.inr ⟨a, rfl⟩⟩

theorem good_pfail (e : Err) : Good (pfail e : P α) :=
  ⟨fun _ _ _ h => Except.noConfusion h,
   fun _ _ _ _ _ h => Except.noConfusion h,
   fun _ _ _ h _ _ => Except.noConfusion h⟩

theorem readByte_ok_elim {s r : Bytes} {a : Int}
    (h : readByte s = .ok (a, r)) :
    ∃ b, s = b :: r ∧ a = decodeByteVal b := by
  match s with
  | [] => cases h
  | b :: rest =>
    injection h with h1
    injection h1 with h2 h3
    exact ⟨b, by rw [h3], h2.symm⟩

theorem readByte_consumed {c r : Bytes} {a : Int}
    (h : readByte (c ++ r) = .ok (a, r)) :
    ∃ b, c = [b] ∧ a = decodeByteVal b := by
  obtain ⟨b, hs, ha⟩ := readByte_ok_elim h
  exact ⟨b, List.append_cancel_right (show c ++ r = [b] ++ r from hs), ha⟩

theorem readByte_short {s : Bytes} (h : s.length < 1) :
    readByte s = .error .unexpectedEndOfData := by
  match s with
  | [] => rfl
  | b :: rest =>
    simp only [List.length_cons] at h
    omega

theorem strong_readByte : Strong readByte := by
  refine ⟨fun s a r h => ?_, fun c r r' a hr h => ?_, fun c r a h n hn => ?_⟩
  · obtain ⟨b, hs, ha⟩ := readByte_ok_elim h
    exact ⟨[b], hs⟩
  · obtain ⟨b, hc, ha⟩ := readByte_consumed h
    subst hc ha
    rfl
  · obtain ⟨b, hc, ha⟩ := readByte_consumed h
    subst hc
    simp at hn
    subst hn
    exact ⟨.unexpectedEndOfData, readByte_short (by simp), Or.inl rfl⟩

theorem readShort_ok_elim {s r : Bytes} {a : Int}
    (h : readShort s = .ok (a, r)) :
    ∃ b0 b1, s = b0 :: b1 :: r ∧ a = decodeShortVal b0 b1 := by
  match s with
  | [] => cases h
  | [b0] => cases h
  | b0 :: b1 :: rest =>
    injection h with h1
    injection h1 with h2 h3
    exact ⟨b0, b1, by rw [h3], h2.symm⟩

theorem readShort_consumed {c r : Bytes} {a : Int}
    (h : readShort (c ++ r) = .ok (a, r)) :
    ∃ b0 b1, c = [b0, b1] ∧ a = decodeShortVal b0 b1 := by
  obtain ⟨b0, b1, hs, ha⟩ := readShort_ok_elim h
  exact ⟨b0, b1,
    List.append_cancel_right (show c ++ r = [b0, b1] ++ r from hs), ha⟩

theorem readShort_short {s : Bytes} (h : s.length < 2) :
    readShort s = .error .unexpectedEndOfData := by
  match s with
  | [] => rfl
  | [b0] => rfl
  | b0 :: b1 :: rest =>
    simp only [List.length_cons] at h
    omega

theorem strong_readShort : Strong readShort := by
  refine ⟨fun s a r h => ?_, fun c r r' a hr h => ?_, fun c r a h n hn => ?_⟩
  · obtain ⟨b0, b1, hs, ha⟩ := readShort_ok_elim h
    exact ⟨[b0, b1], hs⟩
  · obtain ⟨b0, b1, hc, ha⟩ := readShort_consumed h
    subst hc ha
    rfl
  · obtain ⟨b0, b1, hc, ha⟩ := readShort_consumed h
    subst hc
    refine ⟨.unexpectedEndOfData, readShort_short ?_, Or.inl rfl⟩
    simp at hn ⊢
    omega

theorem readInt_ok_elim {s r : Bytes} {a : Int}
    (h : readInt s = .ok (a, r)) :
    ∃ b0 b1 b2 b3, s = b0 :: b1 :: b2 :: b3 :: r ∧
      a = decodeIntVal b0 b1 b2 b3 := by
  match s with
  | [] => cases h
  | [b0] => cases h
  | [b0, b1] => cases h
  | [b0, b1, b2] => cases h
  | b0 :: b1 :: b2 :: b3 :: rest =>
    injection h with h1
    injection h1 with h2 h3
    exact ⟨b0, b1, b2, b3, by rw [h3], h2.symm⟩

theorem readInt_consumed {c r : Bytes} {a : Int}
    (h : readInt (c ++ r) = .ok (a, r)) :
    ∃ b0 b1 b2 b3, c = [b0, b1, b2, b3] ∧ a = decodeIntVal b0 b1 b2 b3 := by
  obtain ⟨b0, b1, b2, b3, hs, ha⟩ := readInt_ok_elim h
  exact ⟨b0, b1, b2, b3, List.append_cancel_right
    (show c ++ r = [b0, b1, b2, b3] ++ r from hs), ha⟩

theorem readInt_short {s : Bytes} (h : s.length < 4) :
    readInt s = .error .unexpectedEndOfData := by
  match s with
  | [] => rfl
  | [b0] => rfl
  | [b0, b1] => rfl
  | [b0, b1, b2] => rfl
  | b0 :: b1 :: b2 :: b3 :: rest =>
    simp only [List.length_cons] at h
    omega

theorem strong_readInt : Strong readInt := by
  refine ⟨fun s a r h => ?_, fun c r r' a hr h => ?_, fun c r a h n hn => ?_⟩
  · obtain ⟨b0, b1, b2, b3, hs, ha⟩ := readInt_ok_elim h
    exact ⟨[b0, b1, b2, b3], hs⟩
  · obtain ⟨b0, b1, b2, b3, hc, ha⟩ := readInt_consumed h
    subst hc ha
    rfl
  · obtain ⟨b0, b1, b2, b3, hc, ha⟩ := readInt_consumed h
    subst hc
    refine ⟨.unexpectedEndOfData, readInt_short ?_, Or.inl rfl⟩
    simp at hn ⊢
    omega

theorem failsEmpty_readByte : FailsEmpty readByte :=
  ⟨.unexpectedEndOfData, rfl, Or.inl rfl⟩

theorem failsEmpty_readShort : FailsEmpty readShort :=
  ⟨.unexpectedEndOfData, rfl, Or.inl rfl⟩

theorem failsEmpty_readInt : FailsEmpty readInt :=
  ⟨.unexpectedEndOfData, rfl, Or.inl rfl⟩

theorem goodE_readByte : GoodE readByte :=
  ⟨good_of_strong strong_readByte,
   Or.inl ⟨.unexpectedEndOfData, rfl, Or.inl rfl⟩⟩

theorem goodE_readShort : GoodE readShort :=
  ⟨good_of_strong strong_readShort,
   Or.inl ⟨.unexpectedEndOfData, rfl, Or.inl rfl⟩⟩

theorem goodE_readInt : GoodE readInt :=
  ⟨good_of_strong strong_readInt,
   Or.inl ⟨.unexpectedEndOfData, rfl, Or.inl rfl⟩⟩

theorem read_string_nil : read_string [] = .error .unexpectedEndOfData := rfl

theorem read_string_short {s : Bytes} (h : s.length < 4) :
    read_string s = .error .unexpectedEndOfData := by
  match s with
  | [] => rfl
  | [b0] => rfl
  | [b0, b1] => rfl
  | [b0, b1, b2] => rfl
  | b0 :: b1 :: b2 :: b3 :: rest =>
    simp only [List.length_cons] at h
    omega

theorem read_string_cons (b0 b1 b2 b3 : Nat) (xs : Bytes) :
    read_string (b0 :: b1 :: b2 :: b3 :: xs) =
      match utf8Decode (if decodeIntVal b0 b1 b2 b3 < 0 then xs
          else xs.take (decodeIntVal b0 b1 b2 b3).toNat) with
      | some str => .ok (str, if decodeIntVal b0 b1 b2 b3 < 0 then []
          else xs.drop (decodeIntVal b0 b1 b2 b3).toNat)
      | none => .error .invalidEncoding := rfl

theorem read_string_ok_elim {s r : Bytes} {str : PyStr}
    (h : read_string s = .ok (str, r)) :
    ∃ b0 b1 b2 b3 rest, s = b0 :: b1 :: b2 :: b3 :: rest ∧
      ((decodeIntVal b0 b1 b2 b3 < 0 ∧ utf8Decode rest = some str ∧
        r = []) ∨
       (0 ≤ decodeIntVal b0 b1 b2 b3 ∧
        utf8Decode (rest.take (decodeIntVal b0 b1 b2 b3).toNat) =
          some str ∧
        r = rest.drop (decodeIntVal b0 b1 b2 b3).toNat)) := by
  match s with
  | [] => cases h
  | [b0] => cases h
  | [b0, b1] => cases h
  | [b0, b1, b2] => cases h
  | b0 :: b1 :: b2 :: b3 :: rest =>
    rw [read_string_cons] at h
    refine ⟨b0, b1, b2, b3, rest, rfl, ?_⟩
    by_cases hneg : decodeIntVal b0 b1 b2 b3 < 0
    · simp only [if_pos hneg] at h
      cases hd : utf8Decode rest with
      | none => rw [hd] at h; cases h
      | some str2 =>
        rw [hd] at h
        injection h with h1
        injection h1 with h2 h3
        exact Or.inl ⟨hneg, congrArg Option.some h2, h3.symm⟩
    · simp only [if_neg hneg] at h
      cases hd : utf8Decode (rest.take (decodeIntVal b0 b1 b2 b3).toNat)
          with
      | none => rw [hd] at h; cases h
      | some str2 =>
        rw [hd] at h
        injection h with h1
        injection h1 with h2 h3
        exact Or.inr ⟨not_lt.mp hneg, congrArg Option.some h2,
          h3.symm⟩

theorem consumes_read_string : Consumes read_string := by
  intro s str r h
  obtain ⟨b0, b1, b2, b3, rest, hs, hcase⟩ := read_string_ok_elim h
  rcases hcase with ⟨hneg, hd, hre⟩ | ⟨hpos, hd, hre⟩
  · exact ⟨s, by rw [hre, List.append_nil]⟩
  · refine ⟨b0 :: b1 :: b2 :: b3 ::
      rest.take (decodeIntVal b0 b1 b2 b3).toNat, ?_⟩
    rw [hs, hre]
    simp only [List.cons_append, List.take_append_drop]

theorem read_string_consumed {c r : Bytes} {str : PyStr} (hr : r ≠ [])
    (h : read_string (c ++ r) = .ok (str, r)) :
    ∃ b0 b1 b2 b3 body, c = b0 :: b1 :: b2 :: b3 :: body ∧
      0 ≤ decodeIntVal b0 b1 b2 b3 ∧
      body.length = (decodeIntVal b0 b1 b2 b3).toNat ∧
      utf8Decode body = some str := by
  obtain ⟨b0, b1, b2, b3, rest, hs, hcase⟩ := read_string_ok_elim h
  rcases hcase with ⟨hneg, hd, hre⟩ | ⟨hpos, hd, hre⟩
  · exact absurd hre hr
  · have hklt : (decodeIntVal b0 b1 b2 b3).toNat < rest.length := by
      by_contra hge
      push_neg at hge
      rw [hre, List.drop_eq_nil_of_le hge] at hr
      exact hr rfl
    have hc : c = b0 :: b1 :: b2 :: b3 ::
        rest.take (decodeIntVal b0 b1 b2 b3).toNat := by
      refine List.append_cancel_right (show c ++ r = _ ++ r from ?_)
      rw [hs, hre]
      simp only [List.cons_append, List.take_append_drop]
    refine ⟨b0, b1, b2, b3,
      rest.take (decodeIntVal b0 b1 b2 b3).toNat, hc, hpos, ?_, hd⟩
    rw [List.length_take]
    omega

theorem localP_read_string : LocalP read_string := by
  intro c r r' str hr h
  obtain ⟨b0, b1, b2, b3, body, hc, hpos, hlen, hd⟩ :=
    read_string_consumed hr h
  subst hc
  show read_string (b0 :: b1 :: b2 :: b3 :: (body ++ r')) = .ok (str, r')
  rw [read_string_cons]
  simp only [if_neg (not_lt.mpr hpos)]
  rw [← hlen, List.take_left, List.drop_left, hd]

theorem truncW_read_string : TruncW read_string := by
  intro c r str h n hn
  obtain ⟨b0, b1, b2, b3, rest, hs, hcase⟩ := read_string_ok_elim h
  by_cases h4 : n < 4
  · refine Or.inl ⟨.unexpectedEndOfData, read_string_short ?_, Or.inl rfl⟩
    rw [List.length_take]
    omega
  · obtain ⟨m, rfl⟩ : ∃ m, n = m + 4 := ⟨n - 4, by omega⟩
    rcases hcase with ⟨hneg, hd, hre⟩ | ⟨hpos, hd, hre⟩
    · have hc : c = b0 :: b1 :: b2 :: b3 :: rest := by
        rw [hre, List.append_nil] at hs
        exact hs
      have hct : c.take (m + 4) = b0 :: b1 :: b2 :: b3 :: rest.take m := by
        rw [hc]
        rfl
      rw [hct, read_string_cons]
      simp only [if_pos hneg]
      cases hdm : utf8Decode (rest.take m) with
      | none => exact Or.inl ⟨.invalidEncoding, rfl, Or.inr rfl⟩
      | some str2 => exact Or.inr ⟨str2, rfl⟩
    · have hc : c = b0 :: b1 :: b2 :: b3 ::
          rest.take (decodeIntVal b0 b1 b2 b3).toNat := by
        refine List.append_cancel_right (show c ++ r = _ ++ r from ?_)
        rw [hs, hre]
        simp only [List.cons_append, List.take_append_drop]
      have hmlt : m < (rest.take (decodeIntVal b0 b1 b2 b3).toNat).length := by
        rw [hc] at hn
        simp only [List.length_cons] at hn
        omega
      have hct : c.take (m + 4) = b0 :: b1 :: b2 :: b3 ::
          (rest.take (decodeIntVal b0 b1 b2 b3).toNat).take m := by
        rw [hc]
        rfl
      have hmk : m ≤ (decodeIntVal b0 b1 b2 b3).toNat := by
        have := List.length_take_le (decodeIntVal b0 b1 b2 b3).toNat rest
        omega
      have htl : ((rest.take (decodeIntVal b0 b1 b2 b3).toNat).take m).length
          ≤ (decodeIntVal b0 b1 b2 b3).toNat :=
        le_trans (List.length_take_le _ _) hmk
      rw [hct, read_string_cons]
      simp only [if_neg (not_lt.mpr hpos)]
      rw [List.take_of_length_le htl, List.drop_eq_nil_of_le htl]
      cases hdm : utf8Decode
          ((rest.take (decodeIntVal b0 b1 b2 b3).toNat).take m) with
      | none => exact Or.inl ⟨.invalidEncoding, rfl, Or.inr rfl⟩
      | some str2 => exact Or.inr ⟨str2, rfl⟩

theorem good_read_string : Good read_string :=
  ⟨consumes_read_string, localP_read_string, truncW_read_string⟩

theorem failsEmpty_read_string : FailsEmpty read_string :=
  ⟨.unexpectedEndOfData, read_string_nil, Or.inl rfl⟩

theorem goodE_read_string : GoodE read_string :=
  ⟨good_read_string,
   Or.inl ⟨.unexpectedEndOfData, read_string_nil, Or.inl rfl⟩⟩

/-- A successful run of the inner note loop splits its input into consumed
bytes and remainder; the consumed bytes parse the same way in front of any
remainder, and every strict truncation of them hits end of data. -/
theorem parseNotesInner_split (t a : Int) (s : Bytes) (ns : List Note)
    (r : Bytes) (h : parseNotesInner t a s = .ok (ns, r)) :
    ∃ c, s = c ++ r ∧
      (∀ r', parseNotesInner t a (c ++ r') = .ok (ns, r')) ∧
      (∀ n, n < c.length →
        parseNotesInner t a (c.take n) = .error .unexpectedEndOfData) := by
  match s with
  | [] => rw [parseNotesInner_nil] at h; cases h
  | [b0] => rw [parseNotesInner_one] at h; cases h
  | b0 :: b1 :: rest =>
    by_cases hj : decodeShortVal b0 b1 = 0
    · rw [parseNotesInner_term t a b0 b1 rest hj] at h
      injection h with h1
      injection h1 with h2 h3
      subst h2
      subst h3
      refine ⟨[b0, b1], rfl, fun r' => parseNotesInner_term t a b0 b1 r' hj,
        fun n hn => ?_⟩
      match n, hn with
      | 0, _ => exact parseNotesInner_nil t a
      | 1, _ => exact parseNotesInner_one t a b0
      | n + 2, hn => simp at hn
    · match rest with
      | [] => rw [parseNotesInner_two t a b0 b1 hj] at h; cases h
      | [bi] => rw [parseNotesInner_three t a b0 b1 bi hj] at h; cases h
      | bi :: bk :: rest2 =>
        rw [parseNotesInner_step t a b0 b1 bi bk rest2 hj] at h
        cases hrec : parseNotesInner t (a + decodeShortVal b0 b1) rest2 with
        | error e => rw [hrec] at h; cases h
        | ok v =>
          obtain ⟨ns2, r2⟩ := v
          rw [hrec] at h
          injection h with h1
          injection h1 with h2 h3
          subst h2
          subst h3
          obtain ⟨c2, hc2, hloc, htr⟩ :=
            parseNotesInner_split t (a + decodeShortVal b0 b1) rest2 ns2
              r2 hrec
          refine ⟨b0 :: b1 :: bi :: bk :: c2, by simp [hc2],
            fun r' => ?_, fun n hn => ?_⟩
          · show parseNotesInner t a
              (b0 :: b1 :: bi :: bk :: (c2 ++ r')) = _
            rw [parseNotesInner_step t a b0 b1 bi bk (c2 ++ r') hj,
              hloc r']
          · simp only [List.length_cons] at hn
            match n, hn with
            | 0, _ => exact parseNotesInner_nil t a
            | 1, _ => exact parseNotesInner_one t a b0
            | 2, _ => exact parseNotesInner_two t a b0 b1 hj
            | 3, _ => exact parseNotesInner_three t a b0 b1 bi hj
            | m + 4, hm =>
              show parseNotesInner t a
                (b0 :: b1 :: bi :: bk :: c2.take m) = _
              rw [parseNotesInner_step t a b0 b1 bi bk (c2.take m) hj,
                htr m (by omega)]

/-- Analogue of `parseNotesInner_split` for the outer note loop: the
consumed bytes parse the same way under any sufficient fuel and in front of
any remainder, and every strict truncation hits end of data under any
fuel. -/
theorem parseNotesGo_split (fuel : Nat) (acc : Int) (s : Bytes)
    (ns : List Note) (r : Bytes) (h : parseNotesGo fuel acc s = .ok (ns, r)) :
    ∃ c, s = c ++ r ∧
      (∀ fuel' r', c.length < 2 * fuel' →
        parseNotesGo fuel' acc (c ++ r') = .ok (ns, r')) ∧
      (∀ n, n < c.length → ∀ fuel',
        parseNotesGo fuel' acc (c.take n) = .error .unexpectedEndOfData) := by
  induction fuel generalizing acc s ns r with
  | zero => rw [parseNotesGo_fuelZero] at h; cases h
  | succ fuel ih =>
    match s with
    | [] => rw [parseNotesGo_nil] at h; cases h
    | [b0] => rw [parseNotesGo_one] at h; cases h
    | b0 :: b1 :: rest =>
      by_cases hj : decodeShortVal b0 b1 = 0
      · rw [parseNotesGo_term fuel acc b0 b1 rest hj] at h
        injection h with h1
        injection h1 with h2 h3
        subst h2
        subst h3
        refine ⟨[b0, b1], rfl, fun fuel' r' hf => ?_, fun n hn fuel' => ?_⟩
        · match fuel', hf with
          | f + 1, _ => exact parseNotesGo_term f acc b0 b1 r' hj
        · match fuel' with
          | 0 => exact parseNotesGo_fuelZero acc _
          | f + 1 =>
            match n, hn with
            | 0, _ => exact parseNotesGo_nil f acc
            | 1, _ => exact parseNotesGo_one f acc b0
            | n + 2, hn => simp at hn
      · rw [parseNotesGo_step fuel acc b0 b1 rest hj] at h
        cases hrec : parseNotesInner (acc + decodeShortVal b0 b1) (-1)
            rest with
        | error e => rw [hrec] at h; cases h
        | ok v =>
          obtain ⟨ns1, r1⟩ := v
          rw [hrec] at h
          replace h : (match parseNotesGo fuel
              (acc + decodeShortVal b0 b1) r1 with
            | .ok (ns2, r2) => (.ok (ns1 ++ ns2, r2) :
                Except Err (List Note × Bytes))
            | .error e => .error e) = .ok (ns, r) := h
          cases hrec2 : parseNotesGo fuel (acc + decodeShortVal b0 b1)
              r1 with
          | error e => rw [hrec2] at h; cases h
          | ok v2 =>
            obtain ⟨ns2, r2⟩ := v2
            rw [hrec2] at h
            injection h with h1
            injection h1 with h2 h3
            subst h2
            subst h3
            obtain ⟨ci, hci, iloc, itr⟩ :=
              parseNotesInner_split (acc + decodeShortVal b0 b1) (-1) rest
                ns1 r1 hrec
            obtain ⟨cg, hcg, gloc, gtr⟩ := ih (acc + decodeShortVal b0 b1)
              r1 ns2 r2 hrec2
            obtain ⟨ci0, hci0, hci0len⟩ :=
              parseNotesInner_consumes (acc + decodeShortVal b0 b1) (-1)
                rest ns1 r1 hrec
            have hcieq : ci0 = ci :=
              List.append_cancel_right (hci0.symm.trans hci)
            have hcilen : 2 ≤ ci.length := hcieq ▸ hci0len
            refine ⟨b0 :: b1 :: (ci ++ cg), by simp [hci, hcg],
              fun fuel' r' hf => ?_, fun n hn fuel' => ?_⟩
            · simp only [List.length_cons, List.length_append] at hf
              match fuel', hf with
              | f + 1, hf =>
                show parseNotesGo (f + 1) acc
                  (b0 :: b1 :: ((ci ++ cg) ++ r')) = _
                rw [parseNotesGo_step f acc b0 b1 ((ci ++ cg) ++ r') hj,
                  List.append_assoc, iloc (cg ++ r')]
                show (match parseNotesGo f (acc + decodeShortVal b0 b1)
                    (cg ++ r') with
                  | .ok (ns2', r2') => (.ok (ns1 ++ ns2', r2') :
                      Except Err (List Note × Bytes))
                  | .error e => .error e) = _
                rw [gloc f r' (by omega)]
            · simp only [List.length_cons, List.length_append] at hn
              match fuel' with
              | 0 => exact parseNotesGo_fuelZero acc _
              | f + 1 =>
                match n, hn with
                | 0, _ => exact parseNotesGo_nil f acc
                | 1, _ => exact parseNotesGo_one f acc b0
                | m + 2, hm =>
                  show parseNotesGo (f + 1) acc
                    (b0 :: b1 :: (ci ++ cg).take m) = _
                  by_cases hmi : m < ci.length
                  · rw [parseNotesGo_step f acc b0 b1 ((ci ++ cg).take m)
                      hj, take_append_left ci cg (le_of_lt hmi),
                      itr m hmi]
                  · rw [parseNotesGo_step f acc b0 b1 ((ci ++ cg).take m)
                      hj, show m = ci.length + (m - ci.length) from by
                        omega, take_append_mid ci cg (m - ci.length),
                      iloc (cg.take (m - ci.length))]
                    show (match parseNotesGo f
                        (acc + decodeShortVal b0 b1)
                        (cg.take (m - ci.length)) with
                      | .ok (ns2', r2') => (.ok (ns1 ++ ns2', r2') :
                          Except Err (List Note × Bytes))
                      | .error e => .error e) = _
                    rw [gtr (m - ci.length) (by omega) f]

theorem strong_parse_notes : Strong parse_notes := by
  refine ⟨fun s ns r h => ?_, fun c r r' ns hr h => ?_,
    fun c r ns h n hn => ?_⟩
  · obtain ⟨c, hc, _, _⟩ := parseNotesGo_split (s.length + 1) (-1) s ns r h
    exact ⟨c, hc⟩
  · obtain ⟨c0, hc0, hloc, _⟩ :=
      parseNotesGo_split ((c ++ r).length + 1) (-1) (c ++ r) ns r h
    have hcc : c = c0 := List.append_cancel_right hc0
    subst hcc
    exact hloc ((c ++ r').length + 1) r'
      (by simp only [List.length_append]; omega)
  · obtain ⟨c0, hc0, _, htr⟩ :=
      parseNotesGo_split ((c ++ r).length + 1) (-1) (c ++ r) ns r h
    have hcc : c = c0 := List.append_cancel_right hc0
    subst hcc
    exact ⟨.unexpectedEndOfData, htr n hn ((c.take n).length + 1),
      Or.inl rfl⟩

theorem failsEmpty_parse_notes : FailsEmpty parse_notes :=
  ⟨.unexpectedEndOfData, rfl, Or.inl rfl⟩

theorem goodE_parseHeaderTail : GoodE parseHeaderTail :=
  good_bindE goodE_readByte fun _ =>
  good_bindE goodE_readByte fun _ =>
  good_bindE goodE_readShort fun _ =>
  good_bindE goodE_readShort fun _ =>
  good_bindE goodE_read_string fun _ =>
  good_bindE goodE_read_string fun _ =>
  good_bindE goodE_read_string fun _ =>
  good_bindE goodE_read_string fun _ =>
  good_bindE goodE_readShort fun _ =>
  good_bindE goodE_readByte fun _ =>
  good_bindE goodE_readByte fun _ =>
  good_bindE goodE_readByte fun _ =>
  good_bindE goodE_readInt fun _ =>
  good_bindE goodE_readInt fun _ =>
  good_bindE goodE_readInt fun _ =>
  good_bindE goodE_readInt fun _ =>
  good_bindE goodE_readInt fun _ =>
  good_bindE goodE_read_string fun _ =>
  goodE_ppure _

theorem goodE_parse_header : GoodE parse_header := by
  refine goodE_bind strong_readShort failsEmpty_readShort fun m => ?_
  by_cases hm : m = 0
  · rw [if_pos hm]
    exact goodE_parseHeaderTail.1
  · rw [if_neg hm]
    exact good_pfail _

theorem goodE_parseLayersFrom : ∀ (n : Nat) (i : Nat),
    GoodE (parseLayersFrom i n)
  | 0, _ => goodE_ppure []
  | n + 1, i =>
    good_bindE goodE_read_string fun _ =>
    good_bindE goodE_readByte fun _ =>
    good_bindE goodE_readByte fun _ =>
    good_bindE (goodE_parseLayersFrom n (i + 1)) fun _ =>
    goodE_ppure _

theorem goodE_parse_layers (count : Int) : GoodE (parse_layers count) :=
  goodE_parseLayersFrom count.toNat 0

theorem strong_parseInstrumentsFrom : ∀ (n : Nat) (i : Nat),
    Strong (parseInstrumentsFrom i n)
  | 0, _ => strong_ppure []
  | n + 1, i =>
    strong_bindW good_read_string
      (fun _ =>
        strong_bindW good_read_string
          (fun _ =>
            strong_bind strong_readByte fun _ =>
            strong_bind strong_readByte fun _ =>
            strong_bind (strong_parseInstrumentsFrom n (i + 1)) fun _ =>
            strong_ppure _)
          (fun _ => failsEmpty_pbind failsEmpty_readByte))
      (fun _ => failsEmpty_pbind failsEmpty_read_string)

theorem strong_parse_instruments : Strong parse_instruments :=
  strong_bind strong_readByte fun count =>
    strong_parseInstrumentsFrom count.toNat 0

theorem failsEmpty_parse_instruments : FailsEmpty parse_instruments :=
  failsEmpty_pbind failsEmpty_readByte

/-- Truncating the bytes consumed by a successful full decode always fails
with end-of-data or an invalid-encoding error. -/
theorem truncS_read_file : TruncS read_file :=
  (strong_bindW goodE_parse_header.1
    (fun header =>
      strong_bind strong_parse_notes fun _ =>
        strong_bindW (goodE_parse_layers header.song_layers).1
          (fun _ =>
            strong_bind strong_parse_instruments fun _ => strong_ppure _)
          (fun _ => failsEmpty_pbind failsEmpty_parse_instruments))
    (fun _ => failsEmpty_pbind failsEmpty_parse_notes)).2.2

/-- C7: for every stream that decodes fully to a document, decoding any
strict prefix fails — no document is ever returned — and the error is
`UnexpectedEndOfData` or, when the cut splits a multi-byte encoded
character inside a string body, `InvalidEncoding`. -/
theorem read_file_truncation (s : Bytes) (d : File)
    (h : read_file s = .ok (d, [])) (n : Nat) (hn : n < s.length) :
    ∃ e, read_file (s.take n) = .error e ∧
      (e = Err.unexpectedEndOfData ∨ e = Err.invalidEncoding) := by
  have hs : read_file (s ++ []) = .ok (d, []) := by
    rw [List.append_nil]
    exact h
  obtain ⟨e, he, hte⟩ := truncS_read_file s [] d hs n hn
  exact ⟨e, he, hte⟩

theorem read_file_truncation_witness :
    ∃ e, read_file (sCE.take 10) = .error e ∧
      (e = Err.unexpectedEndOfData ∨ e = Err.invalidEncoding) :=
  read_file_truncation sCE docCE rfl 10 (by decide)

/-- C7 counterexample to the claimed error kind: `sCE` decodes fully, yet
its 13-byte prefix cuts the song name between the two bytes of its UTF-8
character, and decoding that prefix fails with `InvalidEncoding`, not
`UnexpectedEndOfData`. -/
theorem read_file_truncation_counterexample :
    read_file sCE = .ok (docCE, []) ∧ 13 < sCE.length ∧
    read_file (sCE.take 13) = .error .invalidEncoding ∧
    Err.invalidEncoding ≠ Err.unexpectedEndOfData :=
  ⟨rfl, by decide, rfl, by decide⟩

end Pynbs
